import Mathlib

/-!
Formal model of the Portfolio Analyzer core (`src/PortfolioAnalyzer.jsx`):
the ingestion normalizer `processRawRows` (and its header scan) and the
analytics engine (the `analysis` computation, modelled here as `analyze`).

Modelling conventions:
* JavaScript numbers are modelled as exact rationals (`ℚ`).  Where the
  source can produce `NaN` or `±Infinity` (namely `parseFloat` during
  ingestion), these are explicit constructors (`JVal.nan`, `JVal.inf`,
  `PFloat.nan`, `PFloat.inf`).  Canonical `Holding` records, the input of
  the engine, carry plain rationals.
* JavaScript objects used as insertion-ordered string-keyed maps are
  modelled as association lists that update in place and append fresh keys
  at the end, matching JS string-key insertion order.
* `Array.prototype.sort` with a numeric comparator is stable; it is
  modelled by `List.insertionSort` with the corresponding total relation,
  which is the stable sort with that order.
* The source builds several accumulators in one `forEach` pass; each
  accumulator's update reads only its own state and the current item, so
  they are modelled as independent folds over the same list.
* `x || y` on numbers (resp. strings) yields `y` exactly when `x` is `0`
  (resp. `""`), modelled by `jsOrQ` / `jsOrS`.
-/

namespace PA

/-! ## JavaScript-like primitives -/

/-- JS `x || d` for numbers (`0` is falsy; `NaN` cannot occur on `ℚ`). -/
def jsOrQ (x d : ℚ) : ℚ := if x = 0 then d else x

/-- JS `s || d` for strings (`""` is falsy). -/
def jsOrS (s d : String) : String := if s = "" then d else s

/-- Contiguous-sublist test on character lists. -/
def hasSubAux (pat : List Char) : List Char → Bool
  | [] => pat.isEmpty
  | c :: rest => pat.isPrefixOf (c :: rest) || hasSubAux pat rest

/-- JS `s.includes(pat)`. -/
def strContains (s pat : String) : Bool := hasSubAux pat.data s.data

/-- Drop one leading quote character. -/
def dropLeadQuote : List Char → List Char
  | '"' :: r => r
  | l => l

/-- JS `s.replace(/^"|"$/g, '')`: strip one leading and one trailing
straight quote. -/
def stripOuterQuotes (s : String) : String :=
  ⟨(dropLeadQuote (dropLeadQuote s.data).reverse).reverse⟩

/-- Characters skipped by `parseFloat` before the number, and trimmed by
`trim` (the ASCII whitespace relevant to this model). -/
def isSpaceChar (c : Char) : Bool :=
  c = ' ' || c = '\t' || c = '\n' || c = '\r' || c = '\x0b' || c = '\x0c'

/-- JS `s.trim()` (ASCII whitespace). -/
def trimJS (s : String) : String :=
  ⟨((s.data.dropWhile isSpaceChar).reverse.dropWhile isSpaceChar).reverse⟩

/-- ASCII lower-casing of one character. -/
def lowerChar (c : Char) : Char :=
  if 'A' ≤ c ∧ c ≤ 'Z' then Char.ofNat (c.toNat + 32) else c

/-- JS `s.toLowerCase()` (ASCII range). -/
def toLowerJS (s : String) : String := ⟨s.data.map lowerChar⟩

/-- JS `s.replace(/c/g, '')` for a single character `c`: remove every
occurrence. -/
def removeAll (c : Char) (s : String) : String := ⟨s.data.filter (fun d => d ≠ c)⟩

/-- Longest digit run at the front of a character list. -/
def takeDigits : List Char → List Char × List Char
  | [] => ([], [])
  | c :: cs =>
      if c.isDigit then
        let p := takeDigits cs
        (c :: p.1, p.2)
      else ([], c :: cs)

/-- Value of a digit run. -/
def digitsVal (l : List Char) : ℕ := l.foldl (fun a c => a * 10 + (c.toNat - 48)) 0

/-- Result of JS `parseFloat`: NaN, a signed infinity, or a finite value. -/
inductive PFloat where
  | nan : PFloat
  | inf (pos : Bool) : PFloat
  | fin (q : ℚ) : PFloat
deriving DecidableEq

/-- Optional sign at the front; `true` means non-negative. -/
def readSign : List Char → Bool × List Char
  | '-' :: cs => (false, cs)
  | '+' :: cs => (true, cs)
  | cs => (true, cs)

/-- Optional exponent part `e`/`E` followed by a signed digit run; an `e`
without digits contributes nothing, as in JS. -/
def readExponent (l : List Char) : ℤ :=
  match l with
  | c :: rest =>
      if c = 'e' ∨ c = 'E' then
        let sr := readSign rest
        let ed := (takeDigits sr.2).1
        if ed.isEmpty then 0
        else if sr.1 then (digitsVal ed : ℤ) else -(digitsVal ed : ℤ)
      else 0
  | [] => 0

/-- Powers of ten on `ℚ`, natural exponent. -/
def qpow10 : ℕ → ℚ
  | 0 => 1
  | n + 1 => 10 * qpow10 n

/-- Powers of ten on `ℚ`, integer exponent. -/
def zpow10 : ℤ → ℚ
  | Int.ofNat n => qpow10 n
  | Int.negSucc n => 1 / qpow10 (n + 1)

/-- JS `parseFloat`: skip whitespace, optional sign, `Infinity` or a
decimal literal (longest valid prefix); no digits at all gives NaN. -/
def parseFloatJS (s : String) : PFloat :=
  let cs := s.data.dropWhile isSpaceChar
  let sr := readSign cs
  if "Infinity".data.isPrefixOf sr.2 then PFloat.inf sr.1
  else
    let ipr := takeDigits sr.2
    let fpr : List Char × List Char :=
      match ipr.2 with
      | '.' :: r => takeDigits r
      | _ => ([], ipr.2)
    if ipr.1.isEmpty && fpr.1.isEmpty then PFloat.nan
    else
      let mant : ℚ := (digitsVal ipr.1 : ℚ) + (digitsVal fpr.1 : ℚ) / qpow10 fpr.1.length
      let sgn : ℚ := if sr.1 then 1 else -1
      PFloat.fin (sgn * mant * zpow10 (readExponent fpr.2))

/-- JS `parseFloat(x.toFixed(2))` on an exact rational: round to the
nearest multiple of 1/100 (`round` is round-half-up, as `Math`-style
rounding of exact values). -/
def round2 (x : ℚ) : ℚ := ((round (x * 100) : ℤ) : ℚ) / 100

/-! ## Ingestion normalizer (`processRawRows`) -/

/-- A raw grid cell as delivered by the tabular reader: a string or a
number. -/
inductive Cell where
  | str (s : String) : Cell
  | num (q : ℚ) : Cell
deriving DecidableEq

/-- Serialization of a numeric cell.  The digit format only has to avoid
the alphabetic substrings the header scan looks for, which no numeral
can contain; a plain `num/den` rendering is used. -/
def ratToString (q : ℚ) : String :=
  (if q.num < 0 then "-" else "") ++ (Nat.toDigits 10 q.num.natAbs).asString ++
    (if q.den = 1 then "" else "/" ++ (Nat.toDigits 10 q.den).asString)

/-- JS `String(cell)`. -/
def cellString : Cell → String
  | Cell.str s => s
  | Cell.num q => ratToString q

/-- JSON string escaping for the quote and backslash characters. -/
def jsonEscapeChar (c : Char) : List Char :=
  if c = '"' then ['\\', '"'] else if c = '\\' then ['\\', '\\'] else [c]

/-- JSON escaping of a string body. -/
def jsonEscape (s : String) : String :=
  ⟨s.data.foldr (fun c acc => jsonEscapeChar c ++ acc) []⟩

/-- `JSON.stringify` of one cell. -/
def cellJson : Cell → String
  | Cell.str s => "\"" ++ jsonEscape s ++ "\""
  | Cell.num q => ratToString q

/-- Comma-join of serialized cells. -/
def joinComma : List String → String
  | [] => ""
  | [s] => s
  | s :: rest => s ++ "," ++ joinComma rest

/-- `JSON.stringify(row)`: cells quoted and joined by commas inside
brackets. -/
def rowJson (r : List Cell) : String :=
  "[" ++ joinComma (r.map cellJson) ++ "]"

/-- The source's header test: the lower-cased `JSON.stringify` of the row
contains both `"scheme name"` and `"current value"`. -/
def isHeaderRow (r : List Cell) : Bool :=
  let s := toLowerJS (rowJson r)
  strContains s "scheme name" && strContains s "current value"

/-- Index of the first row passing `isHeaderRow` (the source's
`headerIndex` scan; `none` models `-1`). -/
def findHeaderIdx : List (List Cell) → Option ℕ
  | [] => none
  | r :: rest => if isHeaderRow r then some 0 else (findHeaderIdx rest).map (· + 1)

/-- Spec-side header predicate, following the specification's words: the
case-insensitive concatenation of all cell text contains both
substrings.  Kept separate from `isHeaderRow` for comparison. -/
def specHeaderPred (r : List Cell) : Bool :=
  let s := toLowerJS ((r.map cellString).foldl (fun a b => a ++ b) "")
  strContains s "scheme name" && strContains s "current value"

/-- First row index satisfying the spec-side predicate. -/
def specHeaderIdx : List (List Cell) → Option ℕ
  | [] => none
  | r :: rest => if specHeaderPred r then some 0 else (specHeaderIdx rest).map (· + 1)

/-- A coerced row value: trimmed text, a finite number, `NaN`, a signed
infinity, or JS `undefined`. -/
inductive JVal where
  | str (s : String) : JVal
  | num (q : ℚ) : JVal
  | nan : JVal
  | inf (pos : Bool) : JVal
  | undef : JVal
deriving DecidableEq

/-- Embed a `parseFloat` result. -/
def ofPFloat : PFloat → JVal
  | PFloat.nan => JVal.nan
  | PFloat.inf b => JVal.inf b
  | PFloat.fin q => JVal.num q

/-- The four column names coerced by the plain-number branch. -/
def numericCols : List String := ["Invested Value", "Current Value", "Returns", "Units"]

/-- Numeric coercion (source lines 182-187): empty or missing becomes 0,
strings go through comma-stripping and `parseFloat`, numbers pass
through. -/
def coerceNum : JVal → JVal
  | JVal.undef => JVal.num 0
  | JVal.str s => if s = "" then JVal.num 0 else ofPFloat (parseFloatJS (removeAll ',' s))
  | JVal.num q => JVal.num q
  | JVal.nan => JVal.nan
  | JVal.inf b => JVal.inf b

/-- XIRR coercion (source lines 188-196): also strips percent signs. -/
def coerceXirr : JVal → JVal
  | JVal.undef => JVal.num 0
  | JVal.str s =>
      if s = "" then JVal.num 0
      else ofPFloat (parseFloatJS (removeAll ',' (removeAll '%' s)))
  | JVal.num q => JVal.num q
  | JVal.nan => JVal.nan
  | JVal.inf b => JVal.inf b

/-- Positional cell access with the string trim/unquote of line 180;
a missing cell is `undefined`. -/
def rawVal : Option Cell → JVal
  | none => JVal.undef
  | some (Cell.str s) => JVal.str (stripOuterQuotes (trimJS s))
  | some (Cell.num q) => JVal.num q

/-- Per-column coercion dispatch (`XIRR` is not among `numericCols`, so
the two source `if`s are exclusive). -/
def coerceAt (header : String) (v : JVal) : JVal :=
  if header ∈ numericCols then coerceNum v
  else if header = "XIRR" then coerceXirr v
  else v

/-- A normalized row object: insertion-ordered field map. -/
abbrev Obj := List (String × JVal)

/-- JS `rowObj[k] = v`: overwrite in place or append a fresh key. -/
def objSet (o : Obj) (k : String) (v : JVal) : Obj :=
  if o.any (fun p => p.1 = k) then
    o.map (fun p => if p.1 = k then (k, v) else p)
  else o ++ [(k, v)]

/-- JS `rowObj[k]` (missing keys read as `undefined`). -/
def objGet (o : Obj) (k : String) : JVal :=
  match o.find? (fun p => p.1 = k) with
  | some p => p.2
  | none => JVal.undef

/-- JS truthiness of a row value. -/
def JVal.truthy : JVal → Bool
  | JVal.str s => s ≠ ""
  | JVal.num q => q ≠ 0
  | JVal.nan => false
  | JVal.inf _ => true
  | JVal.undef => false

/-- Header cell normalization (line 166): trim then strip one layer of
quotes. -/
def mkHeaders (r : List Cell) : List String :=
  r.map (fun c => stripOuterQuotes (trimJS (cellString c)))

/-- Build one row object by positional alignment with the headers. -/
def buildObj (headers : List String) (row : List Cell) : Obj :=
  headers.enum.foldl (fun o p => objSet o p.2 (coerceAt p.2 (rawVal (row.get? p.1)))) []

/-- Process one data row: rows with fewer than 2 cells are skipped, and a
row is kept only when its `Scheme Name` field is truthy. -/
def processRow (headers : List String) (row : List Cell) : Option Obj :=
  if row.length < 2 then none
  else if (objGet (buildObj headers row) "Scheme Name").truthy then some (buildObj headers row)
  else none

/-- The ingestion normalizer (source lines 150-204). -/
def processRawRows (rows : List (List Cell)) : List Obj :=
  match findHeaderIdx rows with
  | none => []
  | some i =>
      let headers := mkHeaders (rows.getD i [])
      (rows.drop (i + 1)).filterMap (processRow headers)

/-! ## Analytics engine data model -/

/-- Canonical holding, the engine input (§3 of the design: all numeric
fields are finite rationals, absent text fields are `""`). -/
structure Holding where
  schemeName : String
  category : String
  subCategory : String
  amc : String
  units : ℚ
  investedValue : ℚ
  currentValue : ℚ
  returns : ℚ
  xirr : ℚ
deriving DecidableEq

/-- Holding with the derived per-row fields `_currentNAV`, `_avgBuyNAV`,
`_absReturn` of source lines 304-315. -/
structure PHolding extends Holding where
  currentNAV : ℚ
  avgBuyNAV : ℚ
  absReturn : ℚ
deriving DecidableEq

/-- Source lines 304-315. -/
def derive (x : Holding) : PHolding :=
  let units := jsOrQ x.units 0
  let currVal := jsOrQ x.currentValue 0
  let invVal := jsOrQ x.investedValue 0
  { toHolding := x
    currentNAV := if 0 < units then currVal / units else 0
    avgBuyNAV := if 0 < units then invVal / units else 0
    absReturn := if 0 < invVal then (currVal - invVal) / invVal * 100 else 0 }

/-- `item['Category'] || 'Other'`. -/
def catOf (i : PHolding) : String := jsOrS i.category "Other"

/-- `item['Sub-category'] || 'Other'`. -/
def subOf (i : PHolding) : String := jsOrS i.subCategory "Other"

/-- `item['AMC'] || 'Other'`. -/
def amcOf (i : PHolding) : String := jsOrS i.amc "Other"

/-- The working set: derived holdings, filtered to `currentValue ≥ 5000`
when the cleanup simulation is on (source lines 322-324). -/
def workingSet (data : List Holding) (simulateCleanup : Bool) : List PHolding :=
  let processed := data.map derive
  if simulateCleanup then processed.filter (fun i => 5000 ≤ i.currentValue) else processed

/-- Association-list lookup (JS object property read). -/
def alLookup {V : Type} : List (String × V) → String → Option V
  | [], _ => none
  | p :: rest, k => if p.1 = k then some p.2 else alLookup rest k

/-- Keys of an association list, in insertion order. -/
def alKeys {V : Type} (m : List (String × V)) : List String := m.map (fun p => p.1)

/-- `m[k] = (m[k] || 0) + v` on an insertion-ordered object. -/
def addAt : List (String × ℚ) → String → ℚ → List (String × ℚ)
  | [], k, v => [(k, v)]
  | p :: rest, k, v =>
      if p.1 = k then (k, jsOrQ p.2 0 + v) :: rest else p :: addAt rest k v

/-- Per-category value totals (line 348). -/
def byCategoryOf (l : List PHolding) : List (String × ℚ) :=
  l.foldl (fun m i => addAt m (catOf i) i.currentValue) []

/-- Per-AMC value totals (line 349). -/
def byAMCOf (l : List PHolding) : List (String × ℚ) :=
  l.foldl (fun m i => addAt m (amcOf i) i.currentValue) []

/-- Weighted-XIRR accumulator state: `(sumProduct, sumWeight)`. -/
abbrev XStats := ℚ × ℚ

/-- `if (!categoryXIRR[subCat]) categoryXIRR[subCat] = {0,0}` (line 352). -/
def ensureX (m : List (String × XStats)) (k : String) : List (String × XStats) :=
  if (alLookup m k).isSome then m else m ++ [(k, (0, 0))]

/-- In-place update of the entry at a key. -/
def mapUpd {V : Type} (m : List (String × V)) (k : String) (f : V → V) : List (String × V) :=
  m.map (fun p => if p.1 = k then (k, f p.2) else p)

/-- The two `+=` updates of lines 354-355. -/
def bumpX (m : List (String × XStats)) (k : String) (i : PHolding) : List (String × XStats) :=
  mapUpd m k (fun v => (v.1 + jsOrQ i.xirr 0 * i.currentValue, v.2 + i.currentValue))

/-- One item's effect on the accumulator (lines 352-356); on `ℚ` the JS
guard `xirr && !isNaN(xirr) && xirr !== 0` is exactly `xirr ≠ 0`. -/
def xirrStep (m : List (String × XStats)) (i : PHolding) : List (String × XStats) :=
  let m1 := ensureX m (subOf i)
  if jsOrQ i.xirr 0 ≠ 0 then bumpX m1 (subOf i) i else m1

/-- `categoryXIRR` after the pass. -/
def categoryXIRROf (l : List PHolding) : List (String × XStats) :=
  l.foldl xirrStep []

/-- A merged fund entry: the spread of the first-encountered row plus a
multiplicity count (lines 368-380). -/
structure Fund extends PHolding where
  count : ℕ
deriving DecidableEq

/-- `{...item, count: 1}` (line 369). -/
def initFund (i : PHolding) : Fund := { toPHolding := i, count := 1 }

/-- Merge one more row into an existing fund entry (lines 371-379): the
four numeric fields sum, the count bumps, `_absReturn` is recomputed from
the merged sums; every other field keeps the first row's value. -/
def mergeFund (f : Fund) (i : PHolding) : Fund :=
  let inv := f.investedValue + i.investedValue
  let cur := f.currentValue + i.currentValue
  { f with
    investedValue := inv
    currentValue := cur
    returns := f.returns + i.returns
    units := f.units + i.units
    count := f.count + 1
    absReturn := if 0 < inv then (cur - inv) / inv * 100 else 0 }

/-- One `smartGroups[cat][subCat]` bucket. -/
structure GroupData where
  totalVal : ℚ
  totalInv : ℚ
  funds : List (String × Fund)
deriving DecidableEq

/-- Insert-or-update on an insertion-ordered object: replace the value at
an existing key in place (the update sees the old value), or append the
fresh key at the end (the update sees `none`). -/
def upsert {V : Type} : List (String × V) → String → (Option V → V) → List (String × V)
  | [], k, f => [(k, f none)]
  | p :: rest, k, f =>
      if p.1 = k then (k, f (some p.2)) :: rest else p :: upsert rest k f

/-- `group.funds[schemeName]` insert-or-merge (lines 368-380). -/
def updFund (fs : List (String × Fund)) (nm : String) (i : PHolding) : List (String × Fund) :=
  upsert fs nm (fun o =>
    match o with
    | none => initFund i
    | some f => mergeFund f i)

/-- Value/invested totals plus the fund map update (lines 364-380). -/
def addToGroup (g : GroupData) (i : PHolding) : GroupData :=
  { totalVal := g.totalVal + i.currentValue
    totalInv := g.totalInv + i.investedValue
    funds := updFund g.funds i.schemeName i }

/-- `{ totalVal: 0, totalInv: 0, funds: {} }` (line 362). -/
def emptyGroup : GroupData := ⟨0, 0, []⟩

/-- `smartGroups`: category, then sub-category, insertion-ordered. -/
abbrev Groups := List (String × List (String × GroupData))

/-- Sub-category level insert-or-update (lines 361-366). -/
def updSub (subs : List (String × GroupData)) (sk : String) (i : PHolding) :
    List (String × GroupData) :=
  upsert subs sk (fun o => addToGroup (o.getD emptyGroup) i)

/-- Category level insert-or-update (line 361). -/
def updCat (m : Groups) (ck sk : String) (i : PHolding) : Groups :=
  upsert m ck (fun o => updSub (o.getD []) sk i)

/-- `smartGroups` after the pass (lines 361-381). -/
def smartGroupsOf (l : List PHolding) : Groups :=
  l.foldl (fun m i => updCat m (catOf i) (subOf i) i) []

/-- One entry of the fixed benchmark table. -/
structure BenchEntry where
  name : String
  ret : ℚ
deriving DecidableEq

/-- Keys of the `BENCHMARKS` table (lines 136-146). -/
def benchKeys : List String :=
  ["Large Cap", "Mid Cap", "Small Cap", "Flexi Cap", "ELSS", "Debt", "Liquid", "Sectoral", "Other"]

/-- The `BENCHMARKS` table; unknown keys cannot reach it (the resolver
below only returns table keys), the final branch is the `Other` row. -/
def benchTable (k : String) : BenchEntry :=
  if k = "Large Cap" then ⟨"Nifty 50", 27 / 2⟩
  else if k = "Mid Cap" then ⟨"Nifty Midcap 150", 33 / 2⟩
  else if k = "Small Cap" then ⟨"Nifty Smallcap 250", 19⟩
  else if k = "Flexi Cap" then ⟨"Nifty 500", 15⟩
  else if k = "ELSS" then ⟨"Nifty 500", 15⟩
  else if k = "Debt" then ⟨"FD / Debt Index", 7⟩
  else if k = "Liquid" then ⟨"Liquid Index", 6⟩
  else if k = "Sectoral" then ⟨"Nifty 500", 15⟩
  else ⟨"Inflation", 6⟩

/-- Benchmark key resolution (lines 388-394): exact table key, else the
fixed substring-precedence chain, else `Other`. -/
def resolveBench (s : String) : String :=
  if s ∈ benchKeys then s
  else if strContains s "Large" then "Large Cap"
  else if strContains s "Small" then "Small Cap"
  else if strContains s "Mid" then "Mid Cap"
  else if strContains s "Flexi" then "Flexi Cap"
  else if strContains s "Debt" then "Debt"
  else "Other"

/-- One `comparisonData` entry. -/
structure CompEntry where
  category : String
  myXIRR : ℚ
  benchXIRR : ℚ
  benchName : String
  alpha : ℚ
  weight : ℚ
deriving DecidableEq

/-- Entry construction (lines 396-405). -/
def mkCompEntry (sc : String) (st : XStats) : CompEntry :=
  let myXIRR := st.1 / st.2
  let bench := benchTable (resolveBench sc)
  { category := sc
    myXIRR := round2 myXIRR
    benchXIRR := bench.ret
    benchName := bench.name
    alpha := round2 (myXIRR - bench.ret)
    weight := st.2 }

/-- `comparisonData` (lines 383-408): entries for the sub-categories with
positive `sumWeight`, sorted by weight descending (stable). -/
def comparisonOf (cx : List (String × XStats)) : List CompEntry :=
  List.insertionSort (fun a b => b.weight ≤ a.weight)
    (cx.filterMap (fun p => if 0 < p.2.2 then some (mkCompEntry p.1 p.2) else none))

/-- One sub-category node of `categoryTree`. -/
structure SubNode where
  name : String
  totalVal : ℚ
  totalInv : ℚ
  funds : List Fund
  fundCount : ℕ
deriving DecidableEq

/-- One category node of `categoryTree`. -/
structure CatNode where
  name : String
  totalVal : ℚ
  subCategories : List SubNode
deriving DecidableEq

/-- Lines 411-420: fund values sorted by current value descending. -/
def mkSubNode (p : String × GroupData) : SubNode :=
  let fundList :=
    List.insertionSort (fun a b => b.currentValue ≤ a.currentValue) (p.2.funds.map (fun q => q.2))
  { name := p.1, totalVal := p.2.totalVal, totalInv := p.2.totalInv,
    funds := fundList, fundCount := fundList.length }

/-- Lines 410-422: sub-nodes sorted by total value descending, category
total recomputed from them. -/
def mkCatNode (p : String × List (String × GroupData)) : CatNode :=
  let subCats := List.insertionSort (fun a b => b.totalVal ≤ a.totalVal) (p.2.map mkSubNode)
  { name := p.1
    totalVal := subCats.foldl (fun acc s => acc + s.totalVal) 0
    subCategories := subCats }

/-- `categoryTree` (lines 410-423). -/
def treeOf (g : Groups) : List CatNode :=
  List.insertionSort (fun a b => b.totalVal ≤ a.totalVal) (g.map mkCatNode)

/-- Consolidation ranking key: `b.XIRR || b._absReturn` (line 429). -/
def rankKey (f : Fund) : ℚ := jsOrQ f.xirr f.absReturn

/-- One `consolidationPlan` entry. -/
structure PlanEntry where
  category : String
  winner : Fund
  others : List Fund
  potentialMoveValue : ℚ
deriving DecidableEq

/-- Lines 428-438.  The `[] => none` branch of the match is unreachable:
a sub-node with `fundCount > 2` has a non-empty fund list. -/
def planEntryOf (sub : SubNode) : Option PlanEntry :=
  if 2 < sub.fundCount then
    match List.insertionSort (fun a b => rankKey b ≤ rankKey a) sub.funds with
    | [] => none
    | w :: os =>
        some { category := sub.name, winner := w, others := os,
               potentialMoveValue := os.foldl (fun acc c => acc + c.currentValue) 0 }
  else none

/-- `consolidationPlan` (lines 425-440). -/
def planOf (tree : List CatNode) : List PlanEntry :=
  tree.flatMap (fun cat => cat.subCategories.filterMap planEntryOf)

/-- `simStats` (line 468). -/
structure SimStats where
  originalCount : ℕ
  originalTotalVal : ℚ
  clutterCount : ℕ
  clutterVal : ℚ
deriving DecidableEq

/-- `healthScore` (line 466). -/
structure HealthScore where
  score : ℤ
  label : String
deriving DecidableEq

/-- The engine output (lines 463-471; the purely presentational
`treemapData` reshaping of `categoryTree` is omitted). -/
structure AnalysisResult where
  totalInv : ℚ
  totalCurr : ℚ
  totalReturns : ℚ
  absReturn : ℚ
  lossMakers : List PHolding
  clutter : List PHolding
  categoryData : List (String × ℚ)
  amcData : List (String × ℚ)
  processedData : List PHolding
  categoryTree : List CatNode
  healthScore : HealthScore
  comparisonData : List CompEntry
  simStats : SimStats
  consolidationPlan : List PlanEntry
deriving DecidableEq

/-- `reduce((acc, c) => acc + c['Invested Value'] || 0, 0)` (line 326). -/
def totalInvOf (l : List PHolding) : ℚ := l.foldl (fun acc c => acc + jsOrQ c.investedValue 0) 0

/-- `reduce((acc, c) => acc + c['Current Value'] || 0, 0)` (line 327). -/
def totalCurrOf (l : List PHolding) : ℚ := l.foldl (fun acc c => acc + jsOrQ c.currentValue 0) 0

/-- Current-value sum without the `|| 0` (lines 318 and 320). -/
def sumCurrOf (l : List PHolding) : ℚ := l.foldl (fun acc c => acc + c.currentValue) 0

/-- `filter(i => i['Current Value'] < 5000)` (lines 319 and 359). -/
def clutterItemsOf (l : List PHolding) : List PHolding := l.filter (fun i => i.currentValue < 5000)

/-- `filter(i => i['Returns'] < 0)` (line 358). -/
def lossMakersOf (l : List PHolding) : List PHolding := l.filter (fun i => i.returns < 0)

/-- The health-score computation (lines 454-459): 100 minus the capped
clutter and loss-maker penalties minus the two flat size penalties,
rounded and floored at 0. -/
def scoreOf (clutterCount lossCount size : ℕ) : ℤ :=
  max 0 (round (100 - min 20 ((clutterCount : ℚ) * 2) - min 15 ((lossCount : ℚ) * (3 / 2))
    - (if 20 < size then 10 else 0) - (if 40 < size then 10 else 0)))

/-- The health label thresholds (line 461). -/
def labelOf (score : ℤ) : String :=
  if score < 40 then "Critical"
  else if score < 60 then "Poor"
  else if score < 80 then "Good"
  else "Excellent"

/-- The analytics engine: the body of the `analysis` computation
(lines 301-472) as a pure function of the holdings and the toggle. -/
def analyze (data : List Holding) (simulateCleanup : Bool) : AnalysisResult :=
  let processed0 := data.map derive
  let clutterItems := clutterItemsOf processed0
  let processedData := workingSet data simulateCleanup
  let totalInv := totalInvOf processedData
  let totalCurr := totalCurrOf processedData
  let totalReturns := totalCurr - totalInv
  let absReturn := if 0 < totalInv then totalReturns / totalInv * 100 else 0
  let lossMakers := lossMakersOf processedData
  let score := scoreOf clutterItems.length lossMakers.length processedData.length
  { totalInv := totalInv, totalCurr := totalCurr, totalReturns := totalReturns,
    absReturn := absReturn, lossMakers := lossMakers,
    clutter := clutterItemsOf processedData,
    categoryData := List.insertionSort (fun a b => b.2 ≤ a.2) (byCategoryOf processedData),
    amcData := List.insertionSort (fun a b => b.2 ≤ a.2) (byAMCOf processedData),
    processedData := processedData, categoryTree := treeOf (smartGroupsOf processedData),
    healthScore := { score := score, label := labelOf score },
    comparisonData := comparisonOf (categoryXIRROf processedData),
    simStats := { originalCount := processed0.length, originalTotalVal := sumCurrOf processed0,
                  clutterCount := clutterItems.length, clutterVal := sumCurrOf clutterItems },
    consolidationPlan := planOf (treeOf (smartGroupsOf processedData)) }

/-! ## Basic lemmas about the JS primitives -/

@[simp] theorem jsOrQ_zero (x : ℚ) : jsOrQ x 0 = x := by
  unfold jsOrQ
  split <;> simp_all

theorem foldl_add_eq_sum {α : Type} (f : α → ℚ) (l : List α) (a : ℚ) :
    l.foldl (fun acc c => acc + f c) a = a + (l.map f).sum := by
  induction l generalizing a with
  | nil => simp
  | cons x xs ih => simp [ih, add_assoc]

theorem derive_currentValue (x : Holding) : (derive x).currentValue = x.currentValue := rfl

theorem map_derive_filter (h : List Holding) (p : ℚ → Bool) :
    (h.map derive).filter (fun i => p i.currentValue)
      = (h.filter (fun x => p x.currentValue)).map derive := by
  induction h with
  | nil => rfl
  | cons x xs ih =>
      by_cases hp : p x.currentValue = true
      · simp [List.filter_cons, derive_currentValue, hp, ih]
      · simp only [Bool.not_eq_true] at hp
        simp [List.filter_cons, derive_currentValue, hp, ih]

theorem workingSet_true (h : List Holding) :
    workingSet h true = (h.filter (fun x => 5000 ≤ x.currentValue)).map derive :=
  map_derive_filter h (fun q => 5000 ≤ q)

theorem workingSet_false (h : List Holding) : workingSet h false = h.map derive := rfl

/-! ## C8 and C9 -/

/-- C8: `simulationStats` is identical for `simulateCleanup = true` and
`false` on the same holdings: all four of its fields are computed against
the original unfiltered set, before the simulation filter is applied. -/
theorem c8_simStats_invariant (h : List Holding) :
    (analyze h true).simStats = (analyze h false).simStats := rfl

/-- C9: for every holdings list and toggle, `totalCurrent` is exactly the
sum of `currentValue` over the working set, and `totalReturns` is exactly
`totalCurrent - totalInvested`. -/
theorem c9_totals_exact (h : List Holding) (sim : Bool) :
    (analyze h sim).totalCurr = ((analyze h sim).processedData.map (fun i => i.currentValue)).sum
      ∧ (analyze h sim).totalReturns = (analyze h sim).totalCurr - (analyze h sim).totalInv := by
  refine ⟨?_, rfl⟩
  show (workingSet h sim).foldl (fun acc c => acc + jsOrQ c.currentValue 0) 0 = _
  simp only [jsOrQ_zero]
  simpa using foldl_add_eq_sum (fun i : PHolding => i.currentValue) (workingSet h sim) 0

/-! ## Health-score lemmas -/

theorem round_le_of_le {x y : ℚ} (h : x ≤ y) : round x ≤ round y := by
  rw [round_eq, round_eq]
  exact Int.floor_le_floor (by linarith)

theorem scoreOf_raw_le_100 (c lm n : ℕ) :
    100 - min 20 ((c : ℚ) * 2) - min 15 ((lm : ℚ) * (3 / 2))
        - (if 20 < n then 10 else 0) - (if 40 < n then 10 else 0) ≤ (100 : ℚ) := by
  have h1 : (0 : ℚ) ≤ min 20 ((c : ℚ) * 2) := le_min (by norm_num) (by positivity)
  have h2 : (0 : ℚ) ≤ min 15 ((lm : ℚ) * (3 / 2)) := le_min (by norm_num) (by positivity)
  have h3 : (0 : ℚ) ≤ (if 20 < n then (10 : ℚ) else 0) := by split <;> norm_num
  have h4 : (0 : ℚ) ≤ (if 40 < n then (10 : ℚ) else 0) := by split <;> norm_num
  linarith

theorem scoreOf_nonneg (c lm n : ℕ) : 0 ≤ scoreOf c lm n := le_max_left 0 _

theorem scoreOf_le_100 (c lm n : ℕ) : scoreOf c lm n ≤ 100 := by
  have h1 : round (100 - min 20 ((c : ℚ) * 2) - min 15 ((lm : ℚ) * (3 / 2))
      - (if 20 < n then 10 else 0) - (if 40 < n then 10 else 0)) ≤ round (100 : ℚ) :=
    round_le_of_le (scoreOf_raw_le_100 c lm n)
  have h100 : round (100 : ℚ) = 100 := by
    rw [show ((100 : ℚ)) = ((100 : ℤ) : ℚ) by norm_num, round_intCast]
  unfold scoreOf
  omega

theorem scoreOf_eq_clamp (c lm n : ℕ) :
    scoreOf c lm n = min 100 (max 0 (round (100 - min 20 ((c : ℚ) * 2)
      - min 15 ((lm : ℚ) * (3 / 2)) - (if 20 < n then 10 else 0)
      - (if 40 < n then 10 else 0)))) := by
  have h := scoreOf_le_100 c lm n
  unfold scoreOf at h ⊢
  omega

theorem scoreOf_perfect {n : ℕ} (hn : n ≤ 20) : scoreOf 0 0 n = 100 := by
  unfold scoreOf
  have h1 : ¬ (20 < n) := by omega
  have h2 : ¬ (40 < n) := by omega
  simp only [h1, h2, if_false, Nat.cast_zero]
  norm_num

theorem labelOf_100 : labelOf 100 = "Excellent" := rfl

/-! ## C2: effect of the cleanup simulation -/

/-- A sub-5000 holding used to exhibit the health-score exception. -/
def c2h : Holding := ⟨"Tiny A", "Equity", "Small Cap", "AMC A", 10, 1200, 1000, 0, 0⟩

/-- C2 counterexample: `analyze [c2h] true` and
`analyze ([c2h].filter (5000 ≤ currentValue)) false` have the same
(empty) working set, yet their health scores differ (98 vs 100): the
health score is not computed from the working set alone, because its
clutter-count penalty reads the original unfiltered clutter list. -/
theorem c2_counterexample :
    workingSet [c2h] true = workingSet ([c2h].filter (fun x => 5000 ≤ x.currentValue)) false
      ∧ (analyze [c2h] true).healthScore.score = 98
      ∧ (analyze ([c2h].filter (fun x => 5000 ≤ x.currentValue)) false).healthScore.score = 100 := by
  with_unfolding_all decide

/-- C2 corrected: with `simulateCleanup = true`, the totals, groupings,
loss-maker and clutter detection, benchmark comparison and consolidation
plan are computed from the working set (they coincide with running the
engine directly on the pre-filtered list), but the health score is the
exception: its clutter-count penalty uses the clutter count of the
original unfiltered set, while its loss-maker count and size penalties
use the working set. -/
theorem c2_amended (h : List Holding) :
    (analyze h true).totalInv
        = (analyze (h.filter (fun x => 5000 ≤ x.currentValue)) false).totalInv
      ∧ (analyze h true).totalCurr
        = (analyze (h.filter (fun x => 5000 ≤ x.currentValue)) false).totalCurr
      ∧ (analyze h true).totalReturns
        = (analyze (h.filter (fun x => 5000 ≤ x.currentValue)) false).totalReturns
      ∧ (analyze h true).absReturn
        = (analyze (h.filter (fun x => 5000 ≤ x.currentValue)) false).absReturn
      ∧ (analyze h true).lossMakers
        = (analyze (h.filter (fun x => 5000 ≤ x.currentValue)) false).lossMakers
      ∧ (analyze h true).clutter
        = (analyze (h.filter (fun x => 5000 ≤ x.currentValue)) false).clutter
      ∧ (analyze h true).categoryData
        = (analyze (h.filter (fun x => 5000 ≤ x.currentValue)) false).categoryData
      ∧ (analyze h true).amcData
        = (analyze (h.filter (fun x => 5000 ≤ x.currentValue)) false).amcData
      ∧ (analyze h true).processedData
        = (analyze (h.filter (fun x => 5000 ≤ x.currentValue)) false).processedData
      ∧ (analyze h true).categoryTree
        = (analyze (h.filter (fun x => 5000 ≤ x.currentValue)) false).categoryTree
      ∧ (analyze h true).comparisonData
        = (analyze (h.filter (fun x => 5000 ≤ x.currentValue)) false).comparisonData
      ∧ (analyze h true).consolidationPlan
        = (analyze (h.filter (fun x => 5000 ≤ x.currentValue)) false).consolidationPlan
      ∧ (analyze h true).healthScore.score
        = scoreOf (h.filter (fun x => x.currentValue < 5000)).length
            (analyze h true).lossMakers.length (analyze h true).processedData.length
      ∧ (analyze h true).healthScore.label = labelOf (analyze h true).healthScore.score := by
  have hws : workingSet h true = workingSet (h.filter (fun x => 5000 ≤ x.currentValue)) false := by
    rw [workingSet_true, workingSet_false]
  refine ⟨congrArg totalInvOf hws, congrArg totalCurrOf hws,
    congrArg (fun ws => totalCurrOf ws - totalInvOf ws) hws,
    congrArg (fun ws =>
      if 0 < totalInvOf ws then (totalCurrOf ws - totalInvOf ws) / totalInvOf ws * 100 else 0) hws,
    congrArg lossMakersOf hws, congrArg clutterItemsOf hws,
    congrArg (fun ws => List.insertionSort (fun a b : String × ℚ => b.2 ≤ a.2) (byCategoryOf ws)) hws,
    congrArg (fun ws => List.insertionSort (fun a b : String × ℚ => b.2 ≤ a.2) (byAMCOf ws)) hws,
    hws, congrArg (fun ws => treeOf (smartGroupsOf ws)) hws,
    congrArg (fun ws => comparisonOf (categoryXIRROf ws)) hws,
    congrArg (fun ws => planOf (treeOf (smartGroupsOf ws))) hws, ?_, rfl⟩
  show scoreOf (clutterItemsOf (h.map derive)).length (lossMakersOf (workingSet h true)).length
      (workingSet h true).length = _
  rw [show clutterItemsOf (h.map derive) = (h.filter (fun x => x.currentValue < 5000)).map derive
      from map_derive_filter h (fun q => q < 5000), List.length_map]
  rfl

/-! ## C6: health-score formula -/

/-- A sub-5000 holding used for the C6 counterexample. -/
def c6h : Holding := ⟨"Tiny B", "Equity", "Mid Cap", "AMC B", 5, 2500, 2000, 0, 0⟩

/-- C6 counterexample: with the cleanup simulation on, the working set of
`[c6h]` is empty — zero clutter, zero loss-makers, zero size inside the
working set — so the claimed formula over the working set yields 100, but
the engine scores 98: the clutter penalty is charged from the original
unfiltered set. -/
theorem c6_counterexample :
    (analyze [c6h] true).processedData = []
      ∧ (analyze [c6h] true).clutter = []
      ∧ (analyze [c6h] true).lossMakers = []
      ∧ (analyze [c6h] true).healthScore.score = 98 := by
  with_unfolding_all decide

/-- C6 corrected: the health score follows the claimed formula — start at
100, subtract `min(20, clutterCount*2)` and `min(15, lossMakerCount*1.5)`
before rounding, subtract the two flat size penalties, clamp to `[0,100]`
and round — except that `clutterCount` is the clutter count of the
original unfiltered set (`simStats.clutterCount`), not of the working
set; the loss-maker count and the size are taken from the working set.
The score is always an integer in `[0,100]`, and zero original clutter,
zero loss-makers and a working set of at most 20 holdings score exactly
100 with label "Excellent". -/
theorem c6_amended (h : List Holding) (sim : Bool) :
    (analyze h sim).healthScore.score
        = scoreOf (analyze h sim).simStats.clutterCount
            (analyze h sim).lossMakers.length (analyze h sim).processedData.length
      ∧ (analyze h sim).healthScore.score
        = min 100 (max 0 (round
            (100 - min 20 (((analyze h sim).simStats.clutterCount : ℚ) * 2)
              - min 15 (((analyze h sim).lossMakers.length : ℚ) * (3 / 2))
              - (if 20 < (analyze h sim).processedData.length then 10 else 0)
              - (if 40 < (analyze h sim).processedData.length then 10 else 0))))
      ∧ 0 ≤ (analyze h sim).healthScore.score
      ∧ (analyze h sim).healthScore.score ≤ 100
      ∧ ((analyze h sim).simStats.clutterCount = 0 → (analyze h sim).lossMakers.length = 0 →
          (analyze h sim).processedData.length ≤ 20 →
          (analyze h sim).healthScore.score = 100
            ∧ (analyze h sim).healthScore.label = "Excellent") := by
  refine ⟨rfl, scoreOf_eq_clamp _ _ _, scoreOf_nonneg _ _ _, scoreOf_le_100 _ _ _, ?_⟩
  intro hc hl hn
  have hs : (analyze h sim).healthScore.score = 100 := by
    show scoreOf (analyze h sim).simStats.clutterCount
        (analyze h sim).lossMakers.length (analyze h sim).processedData.length = 100
    rw [hc, hl]
    exact scoreOf_perfect hn
  refine ⟨hs, ?_⟩
  have hlab : (analyze h sim).healthScore.label = labelOf (analyze h sim).healthScore.score := rfl
  rw [hlab, hs]
  rfl

/-! ## C3: alpha rounding -/

theorem bench_ret_mul_100_int (k : String) : ∃ m : ℤ, (benchTable k).ret * 100 = (m : ℚ) := by
  unfold benchTable
  split_ifs
  exacts [⟨1350, by norm_num⟩, ⟨1650, by norm_num⟩, ⟨1900, by norm_num⟩, ⟨1500, by norm_num⟩,
    ⟨1500, by norm_num⟩, ⟨700, by norm_num⟩, ⟨600, by norm_num⟩, ⟨1500, by norm_num⟩,
    ⟨600, by norm_num⟩]

theorem round2_sub_of_int_mul (x b : ℚ) (m : ℤ) (hm : b * 100 = (m : ℚ)) :
    round2 (x - b) = round2 x - round2 b := by
  unfold round2
  rw [hm, round_intCast, show (x - b) * 100 = x * 100 - (m : ℚ) by linarith, round_sub_int]
  push_cast
  ring

theorem mem_comparisonOf {cx : List (String × XStats)} {e : CompEntry}
    (he : e ∈ comparisonOf cx) :
    ∃ p ∈ cx, 0 < p.2.2 ∧ e = mkCompEntry p.1 p.2 := by
  have he2 : e ∈ cx.filterMap
      (fun p => if 0 < p.2.2 then some (mkCompEntry p.1 p.2) else none) :=
    (List.perm_insertionSort _ _).mem_iff.1 he
  obtain ⟨p, hp, hpe⟩ := List.mem_filterMap.1 he2
  by_cases hw : 0 < p.2.2
  · rw [if_pos hw] at hpe
    exact ⟨p, hp, hw, (Option.some.inj hpe).symm⟩
  · rw [if_neg hw] at hpe
    cases hpe

/-- C3: every benchmark-comparison entry's alpha equals the weighted XIRR
rounded to 2 decimals minus the benchmark return rounded to 2 decimals,
both operands rounded independently (on exact rationals the source's
`round2 (xirr - bench)` coincides with this because every benchmark
return is a multiple of 1/100). -/
theorem c3_alpha_rounding (h : List Holding) (sim : Bool) :
    ∀ e ∈ (analyze h sim).comparisonData,
      ∃ sc sp sw, (sc, (sp, sw)) ∈ categoryXIRROf (workingSet h sim) ∧ 0 < sw
        ∧ e.category = sc ∧ e.myXIRR = round2 (sp / sw)
        ∧ e.benchXIRR = (benchTable (resolveBench sc)).ret
        ∧ e.alpha = round2 (sp / sw) - round2 e.benchXIRR := by
  intro e he
  obtain ⟨p, hp, hw, rfl⟩ := mem_comparisonOf he
  obtain ⟨m, hm⟩ := bench_ret_mul_100_int (resolveBench p.1)
  refine ⟨p.1, p.2.1, p.2.2, by simpa using hp, hw, rfl, rfl, rfl, ?_⟩
  exact round2_sub_of_int_mul _ _ m hm

/-! ## Association-list lemmas -/

theorem alLookup_append {V : Type} (m m' : List (String × V)) (k : String) :
    alLookup (m ++ m') k =
      match alLookup m k with
      | some v => some v
      | none => alLookup m' k := by
  induction m with
  | nil => rfl
  | cons p rest ih =>
      by_cases hp : p.1 = k
      · simp [alLookup, hp]
      · simp [alLookup, hp, ih]

theorem alLookup_eq_none {V : Type} {m : List (String × V)} {k : String} :
    alLookup m k = none ↔ k ∉ alKeys m := by
  induction m with
  | nil => simp [alLookup, alKeys]
  | cons p rest ih =>
      by_cases hp : p.1 = k
      · simp [alLookup, hp, alKeys]
      · have hkeys : alKeys (p :: rest) = p.1 :: alKeys rest := rfl
        rw [hkeys]
        simp only [alLookup, hp, if_false, List.mem_cons]
        constructor
        · intro hn hc
          rcases hc with hc | hc
          · exact hp hc.symm
          · exact (ih.1 hn) hc
        · intro hn
          exact ih.2 (fun hc => hn (Or.inr hc))

theorem alLookup_mem {V : Type} {m : List (String × V)} {k : String} {v : V}
    (h : alLookup m k = some v) : (k, v) ∈ m := by
  induction m with
  | nil => cases h
  | cons p rest ih =>
      obtain ⟨pk, pv⟩ := p
      by_cases hp : pk = k
      · subst hp
        simp only [alLookup, if_pos rfl] at h
        obtain rfl := Option.some.inj h
        exact List.mem_cons_self _ _
      · simp only [alLookup, hp, if_false] at h
        exact List.mem_cons_of_mem _ (ih h)

theorem alLookup_of_mem_nodup {V : Type} {m : List (String × V)} {k : String} {v : V}
    (hnd : (alKeys m).Nodup) (h : (k, v) ∈ m) : alLookup m k = some v := by
  induction m with
  | nil => cases h
  | cons p rest ih =>
      rcases List.mem_cons.1 h with h1 | h1
      · subst h1
        simp [alLookup]
      · have hk : k ∈ alKeys rest := List.mem_map.2 ⟨(k, v), h1, rfl⟩
        have hnd2 : p.1 ∉ alKeys rest ∧ (alKeys rest).Nodup :=
          List.nodup_cons.1 (show (p.1 :: alKeys rest).Nodup from hnd)
        have hp : p.1 ≠ k := by
          intro he
          rw [he] at hnd2
          exact hnd2.1 hk
        simp only [alLookup, hp, if_false]
        exact ih hnd2.2 h1

/-! ## C5: the weighted-XIRR accumulator -/

/-- One item's contribution to its sub-category's accumulator pair. -/
def xirrContrib (i : PHolding) (p : XStats) : XStats :=
  if jsOrQ i.xirr 0 ≠ 0 then (p.1 + jsOrQ i.xirr 0 * i.currentValue, p.2 + i.currentValue) else p

/-- Accumulator state after processing a list of group members. -/
def xirrExtend : Option XStats → List PHolding → Option XStats
  | o, [] => o
  | none, i :: r => xirrExtend (some (xirrContrib i (0, 0))) r
  | some p, i :: r => xirrExtend (some (xirrContrib i p)) r

theorem alKeys_mapUpd {V : Type} (m : List (String × V)) (k : String) (f : V → V) :
    alKeys (mapUpd m k f) = alKeys m := by
  induction m with
  | nil => rfl
  | cons p rest ih =>
      show alKeys ((if p.1 = k then (k, f p.2) else p) :: mapUpd rest k f) = _
      by_cases hp : p.1 = k
      · rw [if_pos hp]
        show k :: alKeys (mapUpd rest k f) = p.1 :: alKeys rest
        rw [ih, hp]
      · rw [if_neg hp]
        show p.1 :: alKeys (mapUpd rest k f) = p.1 :: alKeys rest
        rw [ih]

theorem alLookup_mapUpd {V : Type} (m : List (String × V)) (k : String) (f : V → V)
    (k' : String) :
    alLookup (mapUpd m k f) k' =
      if k' = k then (alLookup m k).map f else alLookup m k' := by
  induction m with
  | nil => simp [mapUpd, alLookup]
  | cons p rest ih =>
      obtain ⟨pk, pv⟩ := p
      show alLookup ((if pk = k then (k, f pv) else (pk, pv)) :: mapUpd rest k f) k' = _
      by_cases hp : pk = k
      · subst hp
        rw [if_pos rfl]
        show (if pk = k' then some (f pv) else alLookup (mapUpd rest pk f) k') = _
        by_cases hk : k' = pk
        · subst hk
          rw [if_pos rfl, if_pos rfl,
            show alLookup ((k', pv) :: rest) k' = some pv from by simp [alLookup]]
          rfl
        · rw [if_neg (fun h => hk h.symm), ih, if_neg hk, if_neg hk,
            show alLookup ((pk, pv) :: rest) k'
              = if pk = k' then some pv else alLookup rest k' from rfl,
            if_neg (fun h => hk h.symm)]
      · rw [if_neg hp]
        show (if pk = k' then some pv else alLookup (mapUpd rest k f) k') = _
        by_cases hk : pk = k'
        · subst hk
          rw [if_pos rfl, if_neg (fun h : pk = k => hp h),
            show alLookup ((pk, pv) :: rest) pk
              = if pk = pk then some pv else alLookup rest pk from rfl,
            if_pos rfl]
        · rw [if_neg hk, ih]
          by_cases hkk : k' = k
          · rw [if_pos hkk, if_pos hkk,
              show alLookup ((pk, pv) :: rest) k
                = if pk = k then some pv else alLookup rest k from rfl,
              if_neg hp]
          · rw [if_neg hkk, if_neg hkk,
              show alLookup ((pk, pv) :: rest) k'
                = if pk = k' then some pv else alLookup rest k' from rfl,
              if_neg hk]

theorem alLookup_ensureX (m : List (String × XStats)) (k k' : String) :
    alLookup (ensureX m k) k' =
      if k' = k then some ((alLookup m k).getD (0, 0)) else alLookup m k' := by
  unfold ensureX
  by_cases hs : (alLookup m k).isSome
  · rw [if_pos hs]
    obtain ⟨v, hv⟩ := Option.isSome_iff_exists.1 hs
    by_cases hk : k' = k
    · subst hk
      simp [hv]
    · rw [if_neg hk]
  · rw [if_neg hs]
    rw [alLookup_append]
    have hnone : alLookup m k = none := Option.not_isSome_iff_eq_none.1 hs
    by_cases hk : k' = k
    · subst hk
      simp [hnone, alLookup]
    · cases h0 : alLookup m k'
      · simp [if_neg hk, alLookup, show k ≠ k' from fun h => hk h.symm]
      · simp [if_neg hk]

theorem alLookup_xirrStep (m : List (String × XStats)) (i : PHolding) (sc : String) :
    alLookup (xirrStep m i) sc =
      if sc = subOf i then some (xirrContrib i ((alLookup m (subOf i)).getD (0, 0)))
      else alLookup m sc := by
  unfold xirrStep
  by_cases hx : jsOrQ i.xirr 0 ≠ 0
  · rw [if_pos hx]
    show alLookup (bumpX (ensureX m (subOf i)) (subOf i) i) sc = _
    unfold bumpX
    rw [alLookup_mapUpd]
    by_cases hk : sc = subOf i
    · rw [if_pos hk, if_pos hk, alLookup_ensureX, if_pos rfl, Option.map_some']
      have hc : xirrContrib i ((alLookup m (subOf i)).getD (0, 0))
          = (((alLookup m (subOf i)).getD (0, 0)).1 + jsOrQ i.xirr 0 * i.currentValue,
             ((alLookup m (subOf i)).getD (0, 0)).2 + i.currentValue) := by
        unfold xirrContrib
        rw [if_pos hx]
      rw [hc]
    · rw [if_neg hk, if_neg hk, alLookup_ensureX, if_neg hk]
  · rw [if_neg hx]
    show alLookup (ensureX m (subOf i)) sc = _
    rw [alLookup_ensureX]
    by_cases hk : sc = subOf i
    · rw [if_pos hk, if_pos hk]
      have hc : xirrContrib i ((alLookup m (subOf i)).getD (0, 0))
          = (alLookup m (subOf i)).getD (0, 0) := by
        unfold xirrContrib
        rw [if_neg hx]
      rw [hc]
    · rw [if_neg hk, if_neg hk]

theorem xirrExtend_absorb (i : PHolding) (o : Option XStats) (r : List PHolding) :
    xirrExtend (some (xirrContrib i (o.getD (0, 0)))) r = xirrExtend o (i :: r) := by
  cases o <;> rfl

theorem categoryXIRR_fold (l : List PHolding) (m : List (String × XStats)) (sc : String) :
    alLookup (l.foldl xirrStep m) sc
      = xirrExtend (alLookup m sc) (l.filter (fun i => subOf i = sc)) := by
  induction l generalizing m with
  | nil => simp [xirrExtend]
  | cons i l ih =>
      rw [List.foldl_cons, ih]
      by_cases hi : subOf i = sc
      · rw [List.filter_cons_of_pos (by simpa using hi)]
        rw [alLookup_xirrStep, if_pos hi.symm, hi, xirrExtend_absorb]
      · rw [List.filter_cons_of_neg (by simpa using hi)]
        rw [alLookup_xirrStep, if_neg (fun h => hi h.symm)]

theorem xirrExtend_some (p : XStats) (l : List PHolding) :
    xirrExtend (some p) l = some (l.foldl (fun p i => xirrContrib i p) p) := by
  induction l generalizing p with
  | nil => rfl
  | cons i l ih => rw [xirrExtend, ih, List.foldl_cons]

theorem xirrFold_sums (items : List PHolding) (p : XStats) :
    items.foldl (fun p i => xirrContrib i p) p
      = (p.1 + ((items.filter (fun i => i.xirr ≠ 0)).map
            (fun i => i.xirr * i.currentValue)).sum,
         p.2 + ((items.filter (fun i => i.xirr ≠ 0)).map
            (fun i => i.currentValue)).sum) := by
  induction items generalizing p with
  | nil => simp
  | cons i l ih =>
      rw [List.foldl_cons, ih]
      by_cases hx : i.xirr ≠ 0
      · rw [List.filter_cons_of_pos (by simpa using hx)]
        unfold xirrContrib
        rw [if_pos (by simpa using hx)]
        simp [jsOrQ_zero]
        constructor <;> ring
      · rw [List.filter_cons_of_neg (by simpa using hx)]
        unfold xirrContrib
        rw [if_neg (by simpa using hx)]

theorem alKeys_ensureX (m : List (String × XStats)) (k : String) :
    alKeys (ensureX m k) = if (alLookup m k).isSome then alKeys m else alKeys m ++ [k] := by
  unfold ensureX
  split
  · rfl
  · simp [alKeys]

theorem alKeys_xirr_nodup (l : List PHolding) (m : List (String × XStats))
    (hm : (alKeys m).Nodup) : (alKeys (l.foldl xirrStep m)).Nodup := by
  induction l generalizing m with
  | nil => exact hm
  | cons i l ih =>
      rw [List.foldl_cons]
      apply ih
      unfold xirrStep bumpX
      split
      · rw [alKeys_mapUpd, alKeys_ensureX]
        split
        · exact hm
        · next hs =>
            refine List.Nodup.append hm (List.nodup_singleton _) ?_
            intro a ha hb
            rw [List.mem_singleton] at hb
            subst hb
            exact (alLookup_eq_none.1 (Option.not_isSome_iff_eq_none.1 hs)) ha
      · rw [alKeys_ensureX]
        split
        · exact hm
        · next hs =>
            refine List.Nodup.append hm (List.nodup_singleton _) ?_
            intro a ha hb
            rw [List.mem_singleton] at hb
            subst hb
            exact (alLookup_eq_none.1 (Option.not_isSome_iff_eq_none.1 hs)) ha

/-- C5: per sub-category, the accumulator holds exactly
`(Σ xirr·currentValue, Σ currentValue)` over the working-set members of
that sub-category whose `xirr` is non-zero (zero-XIRR holdings are
skipped; on `ℚ` every value is finite), and a benchmark-comparison entry
for a sub-category exists exactly when its `sumWeight` is positive, with
weighted XIRR `sumProduct / sumWeight`. -/
theorem c5_weighted_xirr (h : List Holding) (sim : Bool) (sc : String) :
    (alLookup (categoryXIRROf (workingSet h sim)) sc
        = if ((workingSet h sim).filter (fun i => subOf i = sc)).isEmpty then none
          else some
            (((((workingSet h sim).filter (fun i => subOf i = sc)).filter
                (fun i => i.xirr ≠ 0)).map (fun i => i.xirr * i.currentValue)).sum,
             ((((workingSet h sim).filter (fun i => subOf i = sc)).filter
                (fun i => i.xirr ≠ 0)).map (fun i => i.currentValue)).sum))
      ∧ ((∃ e ∈ (analyze h sim).comparisonData, e.category = sc)
          ↔ ∃ sp sw, alLookup (categoryXIRROf (workingSet h sim)) sc = some (sp, sw) ∧ 0 < sw)
      ∧ (∀ e ∈ (analyze h sim).comparisonData, e.category = sc →
          ∃ sp sw, alLookup (categoryXIRROf (workingSet h sim)) sc = some (sp, sw) ∧ 0 < sw
            ∧ e.myXIRR = round2 (sp / sw) ∧ e.weight = sw) := by
  have hchar : alLookup (categoryXIRROf (workingSet h sim)) sc
      = if ((workingSet h sim).filter (fun i => subOf i = sc)).isEmpty then none
        else some
          (((((workingSet h sim).filter (fun i => subOf i = sc)).filter
              (fun i => i.xirr ≠ 0)).map (fun i => i.xirr * i.currentValue)).sum,
           ((((workingSet h sim).filter (fun i => subOf i = sc)).filter
              (fun i => i.xirr ≠ 0)).map (fun i => i.currentValue)).sum) := by
    show alLookup ((workingSet h sim).foldl xirrStep []) sc = _
    rw [categoryXIRR_fold]
    cases hfe : (workingSet h sim).filter (fun i => subOf i = sc) with
    | nil => simp [xirrExtend]
    | cons i items =>
        rw [show alLookup ([] : List (String × XStats)) sc = none from rfl]
        rw [show xirrExtend none (i :: items) = xirrExtend (some (xirrContrib i (0, 0))) items
          from rfl]
        rw [xirrExtend_some, xirrFold_sums]
        have hne : (i :: items).isEmpty = false := rfl
        rw [hne]
        simp only [if_false, Bool.false_eq_true]
        by_cases hx : i.xirr ≠ 0
        · have hc : xirrContrib i (0, 0) = (i.xirr * i.currentValue, i.currentValue) := by
            unfold xirrContrib
            rw [if_pos (show jsOrQ i.xirr 0 ≠ 0 by simpa using hx)]
            simp
          rw [hc, List.filter_cons_of_pos (by simpa using hx)]
          simp
        · have hc : xirrContrib i (0, 0) = (0, 0) := by
            unfold xirrContrib
            rw [if_neg (show ¬ jsOrQ i.xirr 0 ≠ 0 by simpa using hx)]
          rw [hc, List.filter_cons_of_neg (by simpa using hx)]
          simp
  refine ⟨hchar, ⟨?_, ?_⟩, ?_⟩
  · rintro ⟨e, he, hec⟩
    obtain ⟨p, hp, hw, rfl⟩ := mem_comparisonOf he
    have hnd : (alKeys (categoryXIRROf (workingSet h sim))).Nodup :=
      alKeys_xirr_nodup _ [] (List.nodup_nil)
    have hl : alLookup (categoryXIRROf (workingSet h sim)) p.1 = some p.2 :=
      alLookup_of_mem_nodup hnd (by simpa using hp)
    subst hec
    exact ⟨p.2.1, p.2.2, by simpa using hl, hw⟩
  · rintro ⟨sp, sw, hl, hw⟩
    refine ⟨mkCompEntry sc (sp, sw), ?_, rfl⟩
    show mkCompEntry sc (sp, sw) ∈ comparisonOf (categoryXIRROf (workingSet h sim))
    apply (List.perm_insertionSort _ _).mem_iff.2
    apply List.mem_filterMap.2
    exact ⟨(sc, (sp, sw)), alLookup_mem hl, by simp [hw]⟩
  · intro e he hec
    obtain ⟨p, hp, hw, rfl⟩ := mem_comparisonOf he
    have hnd : (alKeys (categoryXIRROf (workingSet h sim))).Nodup :=
      alKeys_xirr_nodup _ [] (List.nodup_nil)
    have hl : alLookup (categoryXIRROf (workingSet h sim)) p.1 = some p.2 :=
      alLookup_of_mem_nodup hnd (by simpa using hp)
    subst hec
    exact ⟨p.2.1, p.2.2, by simpa using hl, hw, rfl, rfl⟩

/-! ## Grouping machinery: lookups into `smartGroups` -/

/-- Lookup of one `smartGroups[cat][subCat]` bucket. -/
def lookup2 (m : Groups) (c s : String) : Option GroupData :=
  match alLookup m c with
  | none => none
  | some subs => alLookup subs s

/-- Lookup of one merged fund entry. -/
def fundLookup (m : Groups) (c s nm : String) : Option Fund :=
  match lookup2 m c s with
  | none => none
  | some g => alLookup g.funds nm

/-- Group state after absorbing a list of member rows. -/
def extendGroup : Option GroupData → List PHolding → Option GroupData
  | o, [] => o
  | none, i :: r => extendGroup (some (addToGroup emptyGroup i)) r
  | some g, i :: r => extendGroup (some (addToGroup g i)) r

/-- Fund entry after absorbing a list of same-scheme rows. -/
def extendFund : Option Fund → List PHolding → Option Fund
  | o, [] => o
  | none, i :: r => extendFund (some (initFund i)) r
  | some f, i :: r => extendFund (some (mergeFund f i)) r

/-- Working-set rows of one category/sub-category group. -/
def groupRows (l : List PHolding) (c s : String) : List PHolding :=
  l.filter (fun i => catOf i = c ∧ subOf i = s)

/-- Group rows holding one scheme name. -/
def schemeRows (l : List PHolding) (c s nm : String) : List PHolding :=
  (groupRows l c s).filter (fun i => i.schemeName = nm)

theorem alLookup_cons {V : Type} (p : String × V) (rest : List (String × V)) (k : String) :
    alLookup (p :: rest) k = if p.1 = k then some p.2 else alLookup rest k := rfl

theorem alLookup_upsert {V : Type} (m : List (String × V)) (k : String) (f : Option V → V)
    (k' : String) :
    alLookup (upsert m k f) k' =
      if k' = k then some (f (alLookup m k)) else alLookup m k' := by
  induction m with
  | nil =>
      by_cases hk : k' = k
      · subst hk
        simp [upsert, alLookup]
      · simp [upsert, alLookup, hk, Ne.symm hk]
  | cons p rest ih =>
      obtain ⟨pk, pv⟩ := p
      by_cases hp : pk = k
      · subst hp
        by_cases hk : k' = pk
        · subst hk
          simp [upsert, alLookup]
        · simp [upsert, alLookup, hk, Ne.symm hk]
      · by_cases hpk : pk = k'
        · subst hpk
          simp [upsert, alLookup, hp, fun h : pk = k => hp h]
        · simp [upsert, alLookup, hp, hpk, ih]

theorem alKeys_upsert {V : Type} (m : List (String × V)) (k : String) (f : Option V → V) :
    alKeys (upsert m k f) = if k ∈ alKeys m then alKeys m else alKeys m ++ [k] := by
  induction m with
  | nil => simp [upsert, alKeys]
  | cons p rest ih =>
      by_cases hp : p.1 = k
      · rw [show upsert (p :: rest) k f = (k, f (some p.2)) :: rest from by simp [upsert, hp]]
        rw [show alKeys ((k, f (some p.2)) :: rest) = k :: alKeys rest from rfl,
          show alKeys (p :: rest) = p.1 :: alKeys rest from rfl,
          if_pos (by rw [hp]; exact List.mem_cons_self _ _), hp]
      · rw [show upsert (p :: rest) k f = p :: upsert rest k f from by simp [upsert, hp],
          show alKeys (p :: upsert rest k f) = p.1 :: alKeys (upsert rest k f) from rfl, ih,
          show alKeys (p :: rest) = p.1 :: alKeys rest from rfl]
        by_cases hm : k ∈ alKeys rest
        · rw [if_pos hm, if_pos (List.mem_cons_of_mem _ hm)]
        · rw [if_neg hm, if_neg (by
            intro hc
            rcases List.mem_cons.1 hc with hc | hc
            · exact hp hc.symm
            · exact hm hc)]
          rfl

theorem alKeys_upsert_nodup {V : Type} {m : List (String × V)} {k : String}
    {f : Option V → V} (h : (alKeys m).Nodup) : (alKeys (upsert m k f)).Nodup := by
  rw [alKeys_upsert]
  by_cases hm : k ∈ alKeys m
  · rw [if_pos hm]
    exact h
  · rw [if_neg hm]
    refine List.Nodup.append h (List.nodup_singleton _) ?_
    intro a ha hb
    rw [List.mem_singleton] at hb
    subst hb
    exact hm ha

theorem lookup2_updCat (m : Groups) (ck sk : String) (i : PHolding) (c s : String) :
    lookup2 (updCat m ck sk i) c s =
      if c = ck ∧ s = sk then some (addToGroup ((lookup2 m ck sk).getD emptyGroup) i)
      else lookup2 m c s := by
  unfold lookup2 updCat
  rw [alLookup_upsert]
  by_cases hc : c = ck
  · subst hc
    rw [if_pos rfl]
    show alLookup (updSub ((alLookup m c).getD []) sk i) s = _
    unfold updSub
    rw [alLookup_upsert]
    by_cases hs : s = sk
    · rw [if_pos hs, if_pos ⟨rfl, hs⟩]
      subst hs
      cases halc : alLookup m c with
      | none => rfl
      | some subs => rfl
    · rw [if_neg hs, if_neg (fun hcs => hs hcs.2)]
      cases halc : alLookup m c with
      | none => rfl
      | some subs => rfl
  · rw [if_neg hc, if_neg (fun hcs => hc hcs.1)]

theorem extendGroup_absorb (i : PHolding) (o : Option GroupData) (r : List PHolding) :
    extendGroup (some (addToGroup (o.getD emptyGroup) i)) r = extendGroup o (i :: r) := by
  cases o <;> rfl

theorem lookup2_fold (l : List PHolding) (m : Groups) (c s : String) :
    lookup2 (l.foldl (fun m i => updCat m (catOf i) (subOf i) i) m) c s
      = extendGroup (lookup2 m c s) (groupRows l c s) := by
  induction l generalizing m with
  | nil => simp [groupRows, extendGroup]
  | cons i l ih =>
      rw [List.foldl_cons, ih]
      by_cases hi : catOf i = c ∧ subOf i = s
      · rw [show groupRows (i :: l) c s = i :: groupRows l c s from by
          unfold groupRows
          rw [List.filter_cons_of_pos (by simpa using hi)]]
        rw [lookup2_updCat, if_pos ⟨hi.1.symm, hi.2.symm⟩, hi.1, hi.2, extendGroup_absorb]
      · rw [show groupRows (i :: l) c s = groupRows l c s from by
          unfold groupRows
          rw [List.filter_cons_of_neg (by simpa using hi)]]
        rw [lookup2_updCat, if_neg (fun hcs => hi ⟨hcs.1.symm, hcs.2.symm⟩)]

theorem lookup2_smartGroups (l : List PHolding) (c s : String) :
    lookup2 (smartGroupsOf l) c s = extendGroup none (groupRows l c s) := by
  show lookup2 (l.foldl (fun m i => updCat m (catOf i) (subOf i) i) []) c s = _
  rw [lookup2_fold]
  rfl

theorem extendGroup_some (g : GroupData) (l : List PHolding) :
    extendGroup (some g) l = some (l.foldl addToGroup g) := by
  induction l generalizing g with
  | nil => rfl
  | cons i l ih => rw [extendGroup, ih, List.foldl_cons]

theorem foldGroup_funds (l : List PHolding) (g : GroupData) :
    (l.foldl addToGroup g).funds
      = l.foldl (fun fs i => updFund fs i.schemeName i) g.funds := by
  induction l generalizing g with
  | nil => rfl
  | cons i l ih => rw [List.foldl_cons, List.foldl_cons, ih]; rfl

theorem extendFund_absorb (i : PHolding) (o : Option Fund) (r : List PHolding) :
    extendFund (some (match o with | none => initFund i | some f => mergeFund f i)) r
      = extendFund o (i :: r) := by
  cases o <;> rfl

theorem fundFold_lookup (l : List PHolding) (fs : List (String × Fund)) (nm : String) :
    alLookup (l.foldl (fun fs i => updFund fs i.schemeName i) fs) nm
      = extendFund (alLookup fs nm) (l.filter (fun i => i.schemeName = nm)) := by
  induction l generalizing fs with
  | nil => simp [extendFund]
  | cons i l ih =>
      rw [List.foldl_cons, ih]
      by_cases hi : i.schemeName = nm
      · rw [List.filter_cons_of_pos (by simpa using hi)]
        unfold updFund
        rw [alLookup_upsert, hi, if_pos rfl]
        exact extendFund_absorb i _ _
      · rw [List.filter_cons_of_neg (by simpa using hi)]
        unfold updFund
        rw [alLookup_upsert, if_neg (fun h => hi h.symm)]

theorem extendFund_some (f : Fund) (l : List PHolding) :
    extendFund (some f) l = some (l.foldl mergeFund f) := by
  induction l generalizing f with
  | nil => rfl
  | cons i l ih => rw [extendFund, ih, List.foldl_cons]

theorem mergeFund_fields (f : Fund) (i : PHolding) :
    (mergeFund f i).investedValue = f.investedValue + i.investedValue
      ∧ (mergeFund f i).currentValue = f.currentValue + i.currentValue
      ∧ (mergeFund f i).returns = f.returns + i.returns
      ∧ (mergeFund f i).units = f.units + i.units
      ∧ (mergeFund f i).count = f.count + 1
      ∧ (mergeFund f i).xirr = f.xirr
      ∧ (mergeFund f i).schemeName = f.schemeName
      ∧ (mergeFund f i).category = f.category
      ∧ (mergeFund f i).subCategory = f.subCategory
      ∧ (mergeFund f i).amc = f.amc
      ∧ (mergeFund f i).currentNAV = f.currentNAV
      ∧ (mergeFund f i).avgBuyNAV = f.avgBuyNAV
      ∧ (mergeFund f i).absReturn
        = (if 0 < f.investedValue + i.investedValue
            then (f.currentValue + i.currentValue - (f.investedValue + i.investedValue))
              / (f.investedValue + i.investedValue) * 100
            else 0) :=
  ⟨rfl, rfl, rfl, rfl, rfl, rfl, rfl, rfl, rfl, rfl, rfl, rfl, rfl⟩

theorem mergeFold_spec (rs : List PHolding) (f0 : Fund) :
    (rs.foldl mergeFund f0).investedValue = f0.investedValue + (rs.map (fun i => i.investedValue)).sum
      ∧ (rs.foldl mergeFund f0).currentValue = f0.currentValue + (rs.map (fun i => i.currentValue)).sum
      ∧ (rs.foldl mergeFund f0).returns = f0.returns + (rs.map (fun i => i.returns)).sum
      ∧ (rs.foldl mergeFund f0).units = f0.units + (rs.map (fun i => i.units)).sum
      ∧ (rs.foldl mergeFund f0).count = f0.count + rs.length
      ∧ (rs.foldl mergeFund f0).xirr = f0.xirr
      ∧ (rs.foldl mergeFund f0).schemeName = f0.schemeName
      ∧ (rs.foldl mergeFund f0).category = f0.category
      ∧ (rs.foldl mergeFund f0).subCategory = f0.subCategory
      ∧ (rs.foldl mergeFund f0).amc = f0.amc
      ∧ (rs.foldl mergeFund f0).currentNAV = f0.currentNAV
      ∧ (rs.foldl mergeFund f0).avgBuyNAV = f0.avgBuyNAV
      ∧ (rs ≠ [] → (rs.foldl mergeFund f0).absReturn
          = (if 0 < (rs.foldl mergeFund f0).investedValue
              then ((rs.foldl mergeFund f0).currentValue - (rs.foldl mergeFund f0).investedValue)
                / (rs.foldl mergeFund f0).investedValue * 100
              else 0)) := by
  induction rs generalizing f0 with
  | nil => simp
  | cons i rs ih =>
      rw [List.foldl_cons]
      obtain ⟨h1, h2, h3, h4, h5, h6, h7, h8, h9, h10, h11, h12, h13⟩ := ih (mergeFund f0 i)
      obtain ⟨g1, g2, g3, g4, g5, g6, g7, g8, g9, g10, g11, g12, g13⟩ := mergeFund_fields f0 i
      refine ⟨?_, ?_, ?_, ?_, ?_, ?_, ?_, ?_, ?_, ?_, ?_, ?_, ?_⟩
      · rw [h1, g1]; simp; ring
      · rw [h2, g2]; simp; ring
      · rw [h3, g3]; simp; ring
      · rw [h4, g4]; simp; ring
      · rw [h5, g5]; simp; omega
      · rw [h6, g6]
      · rw [h7, g7]
      · rw [h8, g8]
      · rw [h9, g9]
      · rw [h10, g10]
      · rw [h11, g11]
      · rw [h12, g12]
      · intro hne
        rcases rs with _ | ⟨j, js⟩
        · show (mergeFund f0 i).absReturn
            = if 0 < (mergeFund f0 i).investedValue
              then ((mergeFund f0 i).currentValue - (mergeFund f0 i).investedValue)
                / (mergeFund f0 i).investedValue * 100
              else 0
          rw [g13, g1, g2]
        · exact h13 (by simp)

theorem mem_workingSet_derive {h : List Holding} {sim : Bool} {p : PHolding}
    (hp : p ∈ workingSet h sim) : ∃ x : Holding, p = derive x := by
  unfold workingSet at hp
  cases sim with
  | false =>
      obtain ⟨x, _, hx⟩ := List.mem_map.1 hp
      exact ⟨x, hx.symm⟩
  | true =>
      have hp2 := List.mem_of_mem_filter hp
      obtain ⟨x, _, hx⟩ := List.mem_map.1 hp2
      exact ⟨x, hx.symm⟩

theorem derive_absReturn_formula (x : Holding) :
    (derive x).absReturn
      = (if 0 < (derive x).investedValue
          then ((derive x).currentValue - (derive x).investedValue)
            / (derive x).investedValue * 100
          else 0) := by
  show (if 0 < jsOrQ x.investedValue 0
      then (jsOrQ x.currentValue 0 - jsOrQ x.investedValue 0) / jsOrQ x.investedValue 0 * 100
      else 0) = _
  simp only [jsOrQ_zero]
  rfl

/-! ## C10: merge-by-scheme frame conditions -/

/-- C10: when several working-set rows share category, sub-category and
scheme name, the merged fund entry sums `investedValue`, `currentValue`,
`returns` and `units`, recomputes `absReturnPct` from the merged sums,
bumps `count`, and keeps every other field — `xirr`, the category labels
and the derived NAV fields — from the first-encountered row; in
particular the consolidation ranking key of the merged fund is its first
row's `xirr` when that is non-zero, else the merged `absReturnPct`. -/
theorem c10_merge_frame (h : List Holding) (sim : Bool) (c s nm : String)
    (r0 : PHolding) (rs : List PHolding)
    (hrows : schemeRows (workingSet h sim) c s nm = r0 :: rs) :
    ∃ f, fundLookup (smartGroupsOf (workingSet h sim)) c s nm = some f
      ∧ f.investedValue = ((r0 :: rs).map (fun i => i.investedValue)).sum
      ∧ f.currentValue = ((r0 :: rs).map (fun i => i.currentValue)).sum
      ∧ f.returns = ((r0 :: rs).map (fun i => i.returns)).sum
      ∧ f.units = ((r0 :: rs).map (fun i => i.units)).sum
      ∧ f.absReturn = (if 0 < f.investedValue
          then (f.currentValue - f.investedValue) / f.investedValue * 100 else 0)
      ∧ f.count = rs.length + 1
      ∧ f.xirr = r0.xirr ∧ f.schemeName = r0.schemeName
      ∧ f.category = r0.category ∧ f.subCategory = r0.subCategory ∧ f.amc = r0.amc
      ∧ f.currentNAV = r0.currentNAV ∧ f.avgBuyNAV = r0.avgBuyNAV
      ∧ rankKey f = jsOrQ r0.xirr f.absReturn := by
  have hgr : groupRows (workingSet h sim) c s ≠ [] := by
    intro hempty
    rw [show schemeRows (workingSet h sim) c s nm
        = (groupRows (workingSet h sim) c s).filter (fun i => i.schemeName = nm) from rfl,
      hempty] at hrows
    cases hrows
  obtain ⟨j, js, hjs⟩ : ∃ j js, groupRows (workingSet h sim) c s = j :: js := by
    cases hg : groupRows (workingSet h sim) c s with
    | nil => exact absurd hg hgr
    | cons j js => exact ⟨j, js, rfl⟩
  have hl2 : lookup2 (smartGroupsOf (workingSet h sim)) c s
      = some ((j :: js).foldl addToGroup emptyGroup) := by
    rw [lookup2_smartGroups, hjs]
    rw [show extendGroup none (j :: js) = extendGroup (some (addToGroup emptyGroup j)) js
      from rfl, extendGroup_some]
    rfl
  have hfl : fundLookup (smartGroupsOf (workingSet h sim)) c s nm
      = extendFund none (schemeRows (workingSet h sim) c s nm) := by
    unfold fundLookup
    rw [hl2]
    show alLookup ((j :: js).foldl addToGroup emptyGroup).funds nm = _
    rw [foldGroup_funds, show emptyGroup.funds = [] from rfl]
    rw [show schemeRows (workingSet h sim) c s nm
        = (groupRows (workingSet h sim) c s).filter (fun i => i.schemeName = nm) from rfl, hjs]
    exact fundFold_lookup (j :: js) [] nm
  rw [hrows] at hfl
  rw [show extendFund none (r0 :: rs) = extendFund (some (initFund r0)) rs from rfl,
    extendFund_some] at hfl
  refine ⟨rs.foldl mergeFund (initFund r0), hfl, ?_⟩
  obtain ⟨h1, h2, h3, h4, h5, h6, h7, h8, h9, h10, h11, h12, h13⟩ := mergeFold_spec rs (initFund r0)
  have hr0 : r0 ∈ workingSet h sim := by
    have : r0 ∈ schemeRows (workingSet h sim) c s nm := by
      rw [hrows]
      exact List.mem_cons_self _ _
    exact List.mem_of_mem_filter (List.mem_of_mem_filter this)
  obtain ⟨x, hx⟩ := mem_workingSet_derive hr0
  have habs : (rs.foldl mergeFund (initFund r0)).absReturn
      = (if 0 < (rs.foldl mergeFund (initFund r0)).investedValue
          then ((rs.foldl mergeFund (initFund r0)).currentValue
              - (rs.foldl mergeFund (initFund r0)).investedValue)
            / (rs.foldl mergeFund (initFund r0)).investedValue * 100
          else 0) := by
    rcases rs with _ | ⟨j2, js2⟩
    · show r0.absReturn
        = if 0 < (initFund r0).investedValue
          then ((initFund r0).currentValue - (initFund r0).investedValue)
            / (initFund r0).investedValue * 100
          else 0
      rw [hx, derive_absReturn_formula]
      rfl
    · exact h13 (by simp)
  refine ⟨?_, ?_, ?_, ?_, habs, ?_, h6, h7, h8, h9, h10, h11, h12, ?_⟩
  · rw [h1]
    simp only [List.map_cons, List.sum_cons]
    rfl
  · rw [h2]
    simp only [List.map_cons, List.sum_cons]
    rfl
  · rw [h3]
    simp only [List.map_cons, List.sum_cons]
    rfl
  · rw [h4]
    simp only [List.map_cons, List.sum_cons]
    rfl
  · rw [h5]
    show 1 + rs.length = rs.length + 1
    omega
  · unfold rankKey
    rw [h6]
    rfl

/-! ## Distinct-scheme bookkeeping for the fund maps -/

/-- First-appearance order of the names not yet seen. -/
def firstApp (seen : List String) : List String → List String
  | [] => []
  | x :: xs => if x ∈ seen then firstApp seen xs else x :: firstApp (x :: seen) xs

theorem firstApp_cons (seen : List String) (x : String) (xs : List String) :
    firstApp seen (x :: xs)
      = if x ∈ seen then firstApp seen xs else x :: firstApp (x :: seen) xs := rfl

theorem firstApp_congr (s1 s2 : List String) (hs : ∀ x, x ∈ s1 ↔ x ∈ s2)
    (l : List String) : firstApp s1 l = firstApp s2 l := by
  induction l generalizing s1 s2 with
  | nil => rfl
  | cons x xs ih =>
      rw [firstApp_cons, firstApp_cons]
      by_cases hx : x ∈ s1
      · rw [if_pos hx, if_pos ((hs x).1 hx)]
        exact ih s1 s2 hs
      · rw [if_neg hx, if_neg (fun hc => hx ((hs x).2 hc)),
          ih (x :: s1) (x :: s2) (fun y => by simp [List.mem_cons, hs y])]

theorem firstApp_mem {l : List String} {seen : List String} {x : String} :
    x ∈ firstApp seen l ↔ x ∈ l ∧ x ∉ seen := by
  induction l generalizing seen with
  | nil => simp [firstApp]
  | cons y ys ih =>
      unfold firstApp
      by_cases hy : y ∈ seen
      · rw [if_pos hy, ih]
        constructor
        · rintro ⟨hx, hns⟩
          exact ⟨List.mem_cons_of_mem _ hx, hns⟩
        · rintro ⟨hx, hns⟩
          rcases List.mem_cons.1 hx with rfl | hx
          · exact absurd hy hns
          · exact ⟨hx, hns⟩
      · rw [if_neg hy]
        constructor
        · intro hx
          rcases List.mem_cons.1 hx with rfl | hx
          · exact ⟨List.mem_cons_self _ _, hy⟩
          · obtain ⟨h1, h2⟩ := ih.1 hx
            exact ⟨List.mem_cons_of_mem _ h1,
              fun hc => h2 (List.mem_cons_of_mem _ hc)⟩
        · rintro ⟨hx, hns⟩
          rcases List.mem_cons.1 hx with rfl | hx
          · exact List.mem_cons_self _ _
          · by_cases hxy : x = y
            · subst hxy
              exact List.mem_cons_self _ _
            · refine List.mem_cons_of_mem _ (ih.2 ⟨hx, ?_⟩)
              intro hc
              rcases List.mem_cons.1 hc with hc | hc
              · exact hxy hc
              · exact hns hc

theorem firstApp_nodup (l : List String) (seen : List String) :
    (firstApp seen l).Nodup := by
  induction l generalizing seen with
  | nil => exact List.nodup_nil
  | cons y ys ih =>
      unfold firstApp
      by_cases hy : y ∈ seen
      · rw [if_pos hy]
        exact ih seen
      · rw [if_neg hy]
        refine List.nodup_cons.2 ⟨?_, ih (y :: seen)⟩
        intro hc
        exact (firstApp_mem.1 hc).2 (List.mem_cons_self _ _)

theorem upsert_cons {V : Type} (q : String × V) (rest : List (String × V)) (k : String)
    (f : Option V → V) :
    upsert (q :: rest) k f
      = if q.1 = k then (k, f (some q.2)) :: rest else q :: upsert rest k f := rfl

theorem mem_upsert {V : Type} {m : List (String × V)} {k : String} {f : Option V → V}
    {p : String × V} (hp : p ∈ upsert m k f) : p ∈ m ∨ p = (k, f (alLookup m k)) := by
  induction m with
  | nil =>
      right
      simpa [upsert] using hp
  | cons q rest ih =>
      by_cases hq : q.1 = k
      · rw [upsert_cons, if_pos hq] at hp
        rcases List.mem_cons.1 hp with rfl | hp
        · right
          rw [alLookup_cons, if_pos hq]
        · left
          exact List.mem_cons_of_mem _ hp
      · rw [upsert_cons, if_neg hq] at hp
        rcases List.mem_cons.1 hp with rfl | hp
        · left
          exact List.mem_cons_self _ _
        · rcases ih hp with hin | heq
          · left
            exact List.mem_cons_of_mem _ hin
          · right
            rw [heq, alLookup_cons, if_neg hq]

theorem smartGroups_keys_nodup (l : List PHolding) :
    (alKeys (smartGroupsOf l)).Nodup := by
  suffices hgen : ∀ m : Groups, (alKeys m).Nodup →
      (alKeys (l.foldl (fun m i => updCat m (catOf i) (subOf i) i) m)).Nodup by
    exact hgen [] List.nodup_nil
  induction l with
  | nil => exact fun m hm => hm
  | cons i l ih =>
      intro m hm
      rw [List.foldl_cons]
      exact ih _ (alKeys_upsert_nodup hm)

theorem smartGroups_inner_nodup (l : List PHolding) :
    ∀ p ∈ smartGroupsOf l, (alKeys p.2).Nodup := by
  suffices hgen : ∀ m : Groups, (∀ p ∈ m, (alKeys p.2).Nodup) →
      ∀ p ∈ l.foldl (fun m i => updCat m (catOf i) (subOf i) i) m, (alKeys p.2).Nodup by
    exact hgen [] (by intro p hp; cases hp)
  induction l with
  | nil => exact fun m hm => hm
  | cons i l ih =>
      intro m hm
      rw [List.foldl_cons]
      apply ih
      intro p hp
      rcases mem_upsert hp with hin | heq
      · exact hm p hin
      · rw [heq]
        show (alKeys (updSub ((alLookup m (catOf i)).getD []) (subOf i) i)).Nodup
        apply alKeys_upsert_nodup
        cases hal : alLookup m (catOf i) with
        | none => exact List.nodup_nil
        | some subs => exact hm (catOf i, subs) (alLookup_mem hal)

theorem fundFold_keys (l : List PHolding) (fs : List (String × Fund)) :
    alKeys (l.foldl (fun fs i => updFund fs i.schemeName i) fs)
      = alKeys fs ++ firstApp (alKeys fs) (l.map (fun i => i.schemeName)) := by
  induction l generalizing fs with
  | nil => simp [firstApp]
  | cons i l ih =>
      rw [List.foldl_cons]
      have hkeys : alKeys (updFund fs i.schemeName i)
          = if i.schemeName ∈ alKeys fs then alKeys fs else alKeys fs ++ [i.schemeName] := by
        unfold updFund
        exact alKeys_upsert fs i.schemeName _
      rw [ih, hkeys, List.map_cons, firstApp_cons]
      by_cases hk : i.schemeName ∈ alKeys fs
      · rw [if_pos hk, if_pos hk]
      · rw [if_neg hk, if_neg hk,
          firstApp_congr (alKeys fs ++ [i.schemeName]) (i.schemeName :: alKeys fs)
            (fun x => by simp [or_comm]) (l.map (fun i => i.schemeName))]
        simp

theorem distinct_count_eq (names : List String) :
    names.toFinset.card = (firstApp [] names).length := by
  have hnd : (firstApp [] names).Nodup := firstApp_nodup names []
  have hset : names.toFinset = (firstApp [] names).toFinset := by
    apply Finset.ext
    intro x
    simp only [List.mem_toFinset]
    rw [firstApp_mem]
    simp
  rw [hset, List.toFinset_card_of_nodup hnd]

/-! ## C4: the consolidation plan -/

theorem fundRank_total : ∀ a b : Fund, rankKey b ≤ rankKey a ∨ rankKey a ≤ rankKey b :=
  fun a b => le_total (rankKey b) (rankKey a)

theorem tree_node_src (g : Groups) :
    ∀ c ∈ treeOf g, ∃ p ∈ g, c = mkCatNode p := by
  intro c hc
  have hc2 : c ∈ g.map mkCatNode := (List.perm_insertionSort _ _).mem_iff.1 hc
  obtain ⟨p, hp, he⟩ := List.mem_map.1 hc2
  exact ⟨p, hp, he.symm⟩

theorem sub_node_src (p : String × List (String × GroupData)) :
    ∀ s ∈ (mkCatNode p).subCategories, ∃ q ∈ p.2, s = mkSubNode q := by
  intro s hs
  have hs2 : s ∈ p.2.map mkSubNode := (List.perm_insertionSort _ _).mem_iff.1 hs
  obtain ⟨q, hq, he⟩ := List.mem_map.1 hs2
  exact ⟨q, hq, he.symm⟩

theorem tree_fundCount (g : Groups) :
    ∀ c ∈ treeOf g, ∀ s ∈ c.subCategories, s.fundCount = s.funds.length := by
  intro c hc s hs
  obtain ⟨p, _, rfl⟩ := tree_node_src g c hc
  obtain ⟨q, _, rfl⟩ := sub_node_src p s hs
  rfl

theorem planEntryOf_inv {s : SubNode} {e : PlanEntry} (he : planEntryOf s = some e) :
    2 < s.fundCount
      ∧ List.insertionSort (fun a b => rankKey b ≤ rankKey a) s.funds = e.winner :: e.others
      ∧ e.category = s.name
      ∧ e.potentialMoveValue = e.others.foldl (fun acc c => acc + c.currentValue) 0 := by
  unfold planEntryOf at he
  by_cases hfc : 2 < s.fundCount
  · rw [if_pos hfc] at he
    cases hsort : List.insertionSort (fun a b => rankKey b ≤ rankKey a) s.funds with
    | nil =>
        rw [hsort] at he
        cases he
    | cons w os =>
        rw [hsort] at he
        obtain rfl := Option.some.inj he
        exact ⟨hfc, rfl, rfl, rfl⟩
  · rw [if_neg hfc] at he
    cases he

theorem planEntryOf_pos {s : SubNode} (hfc : 2 < s.fundCount)
    (hlen : s.fundCount = s.funds.length) :
    ∃ w os, List.insertionSort (fun a b => rankKey b ≤ rankKey a) s.funds = w :: os
      ∧ planEntryOf s
        = some ⟨s.name, w, os, os.foldl (fun acc c => acc + c.currentValue) 0⟩ := by
  have hne : List.insertionSort (fun a b => rankKey b ≤ rankKey a) s.funds ≠ [] := by
    intro hnil
    have hl : s.funds.length = 0 := by
      rw [← (List.perm_insertionSort (fun a b => rankKey b ≤ rankKey a) s.funds).length_eq,
        hnil]
      rfl
    rw [hlen, hl] at hfc
    exact absurd hfc (by norm_num)
  cases hsort : List.insertionSort (fun a b => rankKey b ≤ rankKey a) s.funds with
  | nil => exact absurd hsort hne
  | cons w os =>
      refine ⟨w, os, rfl, ?_⟩
      unfold planEntryOf
      rw [if_pos hfc, hsort]

theorem planEntryOf_neg {s : SubNode} (hfc : ¬ 2 < s.fundCount) : planEntryOf s = none := by
  unfold planEntryOf
  rw [if_neg hfc]

theorem plan_length_aux (subs : List SubNode)
    (hfc : ∀ s ∈ subs, s.fundCount = s.funds.length) :
    (subs.filterMap planEntryOf).length = (subs.filter (fun s => 2 < s.fundCount)).length := by
  induction subs with
  | nil => rfl
  | cons s subs ih =>
      have ih2 := ih (fun t ht => hfc t (List.mem_cons_of_mem _ ht))
      by_cases hs : 2 < s.fundCount
      · obtain ⟨w, os, _, hsome⟩ := planEntryOf_pos hs (hfc s (List.mem_cons_self _ _))
        rw [List.filterMap_cons, hsome, List.filter_cons_of_pos (by simpa using hs)]
        simp [ih2]
      · rw [List.filterMap_cons, planEntryOf_neg hs,
          List.filter_cons_of_neg (by simpa using hs)]
        exact ih2

theorem plan_length (tree : List CatNode)
    (hfc : ∀ c ∈ tree, ∀ s ∈ c.subCategories, s.fundCount = s.funds.length) :
    (planOf tree).length
      = ((tree.flatMap (fun c => c.subCategories)).filter (fun s => 2 < s.fundCount)).length := by
  induction tree with
  | nil => rfl
  | cons c tree ih =>
      unfold planOf
      rw [List.flatMap_cons, List.flatMap_cons, List.filter_append, List.length_append,
        List.length_append,
        plan_length_aux c.subCategories (hfc c (List.mem_cons_self _ _))]
      have ih2 := ih (fun d hd => hfc d (List.mem_cons_of_mem _ hd))
      unfold planOf at ih2
      rw [ih2]

/-- C4: the consolidation plan has exactly one entry per category/
sub-category group whose distinct-scheme count exceeds 2 (groups with at
most 2 schemes never appear; one with n > 2 schemes appears with
`others.length = n - 1`); within an entry the merged funds are ranked
descending by the key `xirr` when present and non-zero, else
`absReturnPct`; the winner carries the maximal key; and
`potentialMoveValue` is the sum of `currentValue` over the non-winning
funds.  `fundCount` is exactly the number of distinct scheme names among
the group's working-set rows. -/
theorem c4_consolidation (h : List Holding) (sim : Bool) :
    ((analyze h sim).consolidationPlan.length
        = (((analyze h sim).categoryTree.flatMap (fun c => c.subCategories)).filter
            (fun s => 2 < s.fundCount)).length)
      ∧ (∀ e ∈ (analyze h sim).consolidationPlan,
          ∃ c ∈ (analyze h sim).categoryTree, ∃ s ∈ c.subCategories,
            2 < s.fundCount ∧ s.fundCount = s.funds.length ∧ e.category = s.name
              ∧ (e.winner :: e.others).Perm s.funds
              ∧ List.Pairwise (fun a b => rankKey b ≤ rankKey a) (e.winner :: e.others)
              ∧ (∀ f ∈ e.others, rankKey f ≤ rankKey e.winner)
              ∧ e.others.length + 1 = s.fundCount
              ∧ e.potentialMoveValue = (e.others.map (fun f => f.currentValue)).sum)
      ∧ (∀ c ∈ (analyze h sim).categoryTree, ∀ s ∈ c.subCategories, 2 < s.fundCount →
          ∃ e ∈ (analyze h sim).consolidationPlan,
            e.category = s.name ∧ (e.winner :: e.others).Perm s.funds)
      ∧ (∀ c ∈ (analyze h sim).categoryTree, ∀ s ∈ c.subCategories,
          s.fundCount
            = ((groupRows (workingSet h sim) c.name s.name).map
                (fun i => i.schemeName)).toFinset.card) := by
  have htree : (analyze h sim).categoryTree = treeOf (smartGroupsOf (workingSet h sim)) := rfl
  have hplan : (analyze h sim).consolidationPlan
      = planOf (treeOf (smartGroupsOf (workingSet h sim))) := rfl
  have hfc := tree_fundCount (smartGroupsOf (workingSet h sim))
  refine ⟨?_, ?_, ?_, ?_⟩
  · rw [hplan, htree]
    exact plan_length _ hfc
  · intro e he
    rw [hplan] at he
    obtain ⟨c, hc, he2⟩ := List.mem_flatMap.1 he
    obtain ⟨s, hs, hsome⟩ := List.mem_filterMap.1 he2
    obtain ⟨hgt, hsort, hcat, hpm⟩ := planEntryOf_inv hsome
    have hlen : s.fundCount = s.funds.length := hfc c (htree ▸ hc) s hs
    have hperm : (e.winner :: e.others).Perm s.funds := by
      rw [← hsort]
      exact List.perm_insertionSort _ _
    have hsorted : List.Pairwise (fun a b => rankKey b ≤ rankKey a) (e.winner :: e.others) := by
      rw [← hsort]
      haveI : IsTotal Fund (fun a b => rankKey b ≤ rankKey a) := ⟨fundRank_total⟩
      haveI : IsTrans Fund (fun a b => rankKey b ≤ rankKey a) :=
        ⟨fun a b c hab hbc => le_trans hbc hab⟩
      exact List.sorted_insertionSort _ _
    refine ⟨c, htree ▸ hc, s, hs, hgt, hlen, hcat, hperm, hsorted,
      (List.pairwise_cons.1 hsorted).1, ?_, ?_⟩
    · rw [hlen, ← hperm.length_eq]
      rfl
    · rw [hpm, foldl_add_eq_sum (fun f : Fund => f.currentValue) e.others 0, zero_add]
  · intro c hc s hs hgt
    rw [htree] at hc
    obtain ⟨w, os, hsort, hsome⟩ := planEntryOf_pos hgt (hfc c hc s hs)
    refine ⟨⟨s.name, w, os, os.foldl (fun acc c => acc + c.currentValue) 0⟩, ?_, rfl, ?_⟩
    · rw [hplan]
      exact List.mem_flatMap.2 ⟨c, hc, List.mem_filterMap.2 ⟨s, hs, hsome⟩⟩
    · show (w :: os).Perm s.funds
      rw [← hsort]
      exact List.perm_insertionSort _ _
  · intro c hc s hs
    rw [htree] at hc
    obtain ⟨p, hp, rfl⟩ := tree_node_src _ c hc
    obtain ⟨q, hq, rfl⟩ := sub_node_src p s hs
    have houter : alLookup (smartGroupsOf (workingSet h sim)) p.1 = some p.2 :=
      alLookup_of_mem_nodup (smartGroups_keys_nodup _) (by simpa using hp)
    have hinner : alLookup p.2 q.1 = some q.2 :=
      alLookup_of_mem_nodup (smartGroups_inner_nodup _ p hp) (by simpa using hq)
    have hl2 : lookup2 (smartGroupsOf (workingSet h sim)) p.1 q.1 = some q.2 := by
      unfold lookup2
      rw [houter]
      exact hinner
    rw [lookup2_smartGroups] at hl2
    have hname1 : (mkCatNode p).name = p.1 := rfl
    have hname2 : (mkSubNode q).name = q.1 := rfl
    rw [hname1, hname2]
    cases hgrows : groupRows (workingSet h sim) p.1 q.1 with
    | nil =>
        rw [hgrows] at hl2
        cases hl2
    | cons j js =>
        rw [hgrows] at hl2
        rw [show extendGroup none (j :: js) = extendGroup (some (addToGroup emptyGroup j)) js
          from rfl, extendGroup_some] at hl2
        have hfunds : q.2.funds
            = (j :: js).foldl (fun fs i => updFund fs i.schemeName i) [] := by
          rw [show q.2 = (j :: js).foldl addToGroup emptyGroup
            from (Option.some.inj hl2).symm]
          exact foldGroup_funds (j :: js) emptyGroup
        have hcount : (mkSubNode q).fundCount = q.2.funds.length := by
          show (List.insertionSort (fun a b => b.currentValue ≤ a.currentValue)
              (q.2.funds.map (fun r => r.2))).length = q.2.funds.length
          rw [(List.perm_insertionSort _ _).length_eq, List.length_map]
        rw [hcount, hfunds]
        have hkeys := fundFold_keys (j :: js) []
        have hlen : ((j :: js).foldl (fun fs i => updFund fs i.schemeName i) []).length
            = (firstApp [] ((j :: js).map (fun i => i.schemeName))).length := by
          have : alKeys ((j :: js).foldl (fun fs i => updFund fs i.schemeName i) [])
              = firstApp [] ((j :: js).map (fun i => i.schemeName)) := by
            rw [hkeys]
            rfl
          rw [show ((j :: js).foldl (fun fs i => updFund fs i.schemeName i) []).length
              = (alKeys ((j :: js).foldl (fun fs i => updFund fs i.schemeName i) [])).length
            from (List.length_map _ _).symm, this]
        rw [hlen, ← distinct_count_eq]

/-! ## C7: header detection -/

theorem findHeaderIdx_none (rows : List (List Cell))
    (hall : ∀ r2 ∈ rows, isHeaderRow r2 = false) : findHeaderIdx rows = none := by
  induction rows with
  | nil => rfl
  | cons a rest ih =>
      unfold findHeaderIdx
      rw [if_neg (by simp [hall a (List.mem_cons_self _ _)]),
        ih (fun r2 hr2 => hall r2 (List.mem_cons_of_mem _ hr2))]
      rfl

theorem findHeaderIdx_split (pre post : List (List Cell)) (r : List Cell)
    (hpre : ∀ r2 ∈ pre, isHeaderRow r2 = false) (hr : isHeaderRow r = true) :
    findHeaderIdx (pre ++ r :: post) = some pre.length := by
  induction pre with
  | nil =>
      show findHeaderIdx (r :: post) = some 0
      unfold findHeaderIdx
      rw [if_pos hr]
  | cons a pre ih =>
      show findHeaderIdx (a :: (pre ++ r :: post)) = some (pre.length + 1)
      unfold findHeaderIdx
      rw [if_neg (by simp [hpre a (List.mem_cons_self _ _)]),
        ih (fun r2 h2 => hpre r2 (List.mem_cons_of_mem _ h2))]
      rfl

theorem getD_append_len {α : Type} (pre post : List α) (r dflt : α) :
    (pre ++ r :: post).getD pre.length dflt = r := by
  induction pre with
  | nil => rfl
  | cons a pre ih => exact ih

theorem drop_append_len {α : Type} (pre post : List α) (r : α) :
    (pre ++ r :: post).drop (pre.length + 1) = post := by
  induction pre with
  | nil => rfl
  | cons a pre ih => exact ih

/-- The grid separating concatenation-based header detection from the
source's JSON-serialization-based detection: row 0's cell texts
concatenate to "scheme namecurrent value", which contains both target
substrings, but its JSON serialization does not contain "scheme name"
because the match would have to span a cell boundary. -/
def c7grid : List (List Cell) :=
  [[Cell.str "scheme na", Cell.str "me", Cell.str "current value"],
   [Cell.str "Scheme Name", Cell.str "Current Value"],
   [Cell.str "X", Cell.str "1"]]

/-- C7 counterexample: on `c7grid` the specification's predicate (the
case-insensitive concatenation of all cell text contains both
substrings) selects row 0 as the first header row, but the code selects
row 1. -/
theorem c7_counterexample :
    specHeaderIdx c7grid = some 0 ∧ findHeaderIdx c7grid = some 1 := by
  with_unfolding_all decide

/-- C7 amended: the header is the first row, scanning top-to-bottom,
whose lower-cased JSON serialization (each cell quoted, cells joined by
commas — not the plain concatenation of cell text, so a match can never
span a cell boundary) contains both "scheme name" and "current value";
rows before it are never treated as data, and with no such row the
normalizer returns the empty list. -/
theorem c7_amended (rows pre post : List (List Cell)) (r : List Cell) :
    ((∀ r2 ∈ rows, isHeaderRow r2 = false) →
        findHeaderIdx rows = none ∧ processRawRows rows = [])
      ∧ ((∀ r2 ∈ pre, isHeaderRow r2 = false) → isHeaderRow r = true →
          findHeaderIdx (pre ++ r :: post) = some pre.length
            ∧ processRawRows (pre ++ r :: post)
              = post.filterMap (processRow (mkHeaders r))) := by
  constructor
  · intro hall
    refine ⟨findHeaderIdx_none rows hall, ?_⟩
    unfold processRawRows
    rw [findHeaderIdx_none rows hall]
  · intro hpre hr
    refine ⟨findHeaderIdx_split pre post r hpre hr, ?_⟩
    unfold processRawRows
    rw [findHeaderIdx_split pre post r hpre hr]
    show ((pre ++ r :: post).drop (pre.length + 1)).filterMap
        (processRow (mkHeaders ((pre ++ r :: post).getD pre.length []))) = _
    rw [getD_append_len, drop_append_len]

/-! ## C1: numeric coercion of normalized rows -/

/-- A value in the image of the numeric coercions: a finite number, NaN,
or a signed infinity — never text or `undefined`. -/
def numLike (v : JVal) : Prop :=
  (∃ q, v = JVal.num q) ∨ v = JVal.nan ∨ ∃ b, v = JVal.inf b

theorem numLike_ofPFloat (p : PFloat) : numLike (ofPFloat p) := by
  cases p with
  | nan => exact Or.inr (Or.inl rfl)
  | inf b => exact Or.inr (Or.inr ⟨b, rfl⟩)
  | fin q => exact Or.inl ⟨q, rfl⟩

theorem numLike_coerceNum (v : JVal) : numLike (coerceNum v) := by
  cases v with
  | undef => exact Or.inl ⟨0, rfl⟩
  | str s =>
      show numLike (if s = "" then JVal.num 0 else ofPFloat (parseFloatJS (removeAll ',' s)))
      by_cases hs : s = ""
      · rw [if_pos hs]
        exact Or.inl ⟨0, rfl⟩
      · rw [if_neg hs]
        exact numLike_ofPFloat _
  | num q => exact Or.inl ⟨q, rfl⟩
  | nan => exact Or.inr (Or.inl rfl)
  | inf b => exact Or.inr (Or.inr ⟨b, rfl⟩)

theorem numLike_coerceXirr (v : JVal) : numLike (coerceXirr v) := by
  cases v with
  | undef => exact Or.inl ⟨0, rfl⟩
  | str s =>
      show numLike (if s = "" then JVal.num 0
        else ofPFloat (parseFloatJS (removeAll ',' (removeAll '%' s))))
      by_cases hs : s = ""
      · rw [if_pos hs]
        exact Or.inl ⟨0, rfl⟩
      · rw [if_neg hs]
        exact numLike_ofPFloat _
  | num q => exact Or.inl ⟨q, rfl⟩
  | nan => exact Or.inr (Or.inl rfl)
  | inf b => exact Or.inr (Or.inr ⟨b, rfl⟩)

theorem numLike_coerceAt (k : String) (v : JVal) (hk : k ∈ numericCols ∨ k = "XIRR") :
    numLike (coerceAt k v) := by
  unfold coerceAt
  by_cases hn : k ∈ numericCols
  · rw [if_pos hn]
    exact numLike_coerceNum v
  · rw [if_neg hn]
    rcases hk with hk | hk
    · exact absurd hk hn
    · rw [if_pos hk]
      exact numLike_coerceXirr v

theorem mem_objSet {o : Obj} {k : String} {v : JVal} {p : String × JVal}
    (hp : p ∈ objSet o k v) : p ∈ o ∨ p = (k, v) := by
  unfold objSet at hp
  split at hp
  · obtain ⟨p0, hp0, he⟩ := List.mem_map.1 hp
    by_cases h0 : p0.1 = k
    · rw [if_pos h0] at he
      exact Or.inr he.symm
    · rw [if_neg h0] at he
      exact Or.inl (he ▸ hp0)
  · rcases List.mem_append.1 hp with hin | hone
    · exact Or.inl hin
    · exact Or.inr (List.mem_singleton.1 hone)

theorem buildObj_numeric (headers : List String) (row : List Cell) :
    ∀ p ∈ buildObj headers row, (p.1 ∈ numericCols ∨ p.1 = "XIRR") → numLike p.2 := by
  suffices hgen : ∀ (l : List (ℕ × String)) (o : Obj),
      (∀ p ∈ o, (p.1 ∈ numericCols ∨ p.1 = "XIRR") → numLike p.2) →
      ∀ p ∈ l.foldl (fun o q => objSet o q.2 (coerceAt q.2 (rawVal (row.get? q.1)))) o,
        (p.1 ∈ numericCols ∨ p.1 = "XIRR") → numLike p.2 by
    intro p hp
    exact hgen headers.enum [] (by intro p hp; cases hp) p hp
  intro l
  induction l with
  | nil => exact fun o ho => ho
  | cons q l ih =>
      intro o ho
      rw [List.foldl_cons]
      apply ih
      intro p hp hnum
      rcases mem_objSet hp with hin | heq
      · exact ho p hin hnum
      · rw [heq]
        rw [heq] at hnum
        exact numLike_coerceAt q.2 _ hnum

theorem processRow_eq_buildObj {headers : List String} {row : List Cell} {o : Obj}
    (h : processRow headers row = some o) : o = buildObj headers row := by
  unfold processRow at h
  by_cases hlen : row.length < 2
  · rw [if_pos hlen] at h
    cases h
  · rw [if_neg hlen] at h
    by_cases ht : (objGet (buildObj headers row) "Scheme Name").truthy
    · rw [if_pos ht] at h
      exact (Option.some.inj h).symm
    · rw [if_neg ht] at h
      cases h

theorem mem_processRawRows {rows : List (List Cell)} {o : Obj}
    (ho : o ∈ processRawRows rows) :
    ∃ headers row, processRow headers row = some o := by
  unfold processRawRows at ho
  split at ho
  · cases ho
  · obtain ⟨row, _, hrow⟩ := List.mem_filterMap.1 ho
    exact ⟨_, row, hrow⟩

/-- C1 corrected: every numeric field (`Units`, `Invested Value`,
`Current Value`, `Returns`, `XIRR`) of a normalized row is a number, NaN
or a signed infinity — never text or `undefined`; an empty or missing
cell coerces to 0 and a present number passes through, but a non-empty
unparseable text cell becomes NaN (JS `parseFloat`), not 0. -/
theorem c1_coercion (rows : List (List Cell)) (o : Obj) (ho : o ∈ processRawRows rows)
    (k : String) (v : JVal) (hkv : (k, v) ∈ o) (hk : k ∈ numericCols ∨ k = "XIRR") :
    numLike v
      ∧ coerceNum JVal.undef = JVal.num 0
      ∧ coerceNum (JVal.str "") = JVal.num 0
      ∧ (∀ s : String, s ≠ "" →
          coerceNum (JVal.str s) = ofPFloat (parseFloatJS (removeAll ',' s)))
      ∧ (∀ q : ℚ, coerceNum (JVal.num q) = JVal.num q) := by
  obtain ⟨headers, row, hrow⟩ := mem_processRawRows ho
  have hbuild := processRow_eq_buildObj hrow
  subst hbuild
  refine ⟨buildObj_numeric headers row (k, v) hkv hk, rfl, ?_, ?_, fun q => rfl⟩
  · show (if ("" : String) = "" then JVal.num 0
      else ofPFloat (parseFloatJS (removeAll ',' ""))) = JVal.num 0
    rw [if_pos rfl]
  · intro s hs
    show (if s = "" then JVal.num 0 else ofPFloat (parseFloatJS (removeAll ',' s))) = _
    rw [if_neg hs]

/-- The grid exhibiting the NaN coercion: the `Units` cell "abc" is
non-empty but unparseable. -/
def c1grid : List (List Cell) :=
  [[Cell.str "Scheme Name", Cell.str "Current Value", Cell.str "Units"],
   [Cell.str "X", Cell.str "100", Cell.str "abc"]]

/-- C1 counterexample: normalizing `c1grid` keeps the row (its scheme
name is truthy) and stores `NaN` — not 0, and not a finite number — in
its `Units` field, refuting both the never-NaN invariant and the
unparseable-text-coerces-to-0 rule. -/
theorem c1_counterexample :
    processRawRows c1grid
        = [[("Scheme Name", JVal.str "X"), ("Current Value", JVal.num 100),
            ("Units", JVal.nan)]]
      ∧ ∃ o ∈ processRawRows c1grid, ("Units", JVal.nan) ∈ o := by
  with_unfolding_all decide

/-! ## Concrete portfolios used to instantiate the theorems -/

/-- Single Large Cap holding (the spec's worked example, scaled down). -/
def demoLC : List Holding := [⟨"Axis Bluechip", "Equity", "Large Cap", "Axis", 1, 2, 4, 2, 31 / 2⟩]

/-- The comparison entry produced for `demoLC`. -/
def compLC : CompEntry := ⟨"Large Cap", 31 / 2, 27 / 2, "Nifty 50", 2, 4⟩

/-- Single holding with a non-zero XIRR for the accumulator witness. -/
def demoW : List Holding := [⟨"HDFC Flexi", "Equity", "Large Cap", "HDFC", 1, 8, 10, 2, 12⟩]

/-- First scheme of the consolidation witness (XIRR 10). -/
def h3A : Holding := ⟨"A", "Equity", "Flexi Cap", "AMC1", 1, 2, 2, 0, 10⟩

/-- Second scheme of the consolidation witness (XIRR 30, the winner). -/
def h3B : Holding := ⟨"B", "Equity", "Flexi Cap", "AMC2", 1, 2, 4, 2, 30⟩

/-- Third scheme of the consolidation witness (XIRR 20). -/
def h3C : Holding := ⟨"C", "Equity", "Flexi Cap", "AMC3", 1, 2, 6, 4, 20⟩

/-- Three distinct schemes in one sub-category for the consolidation
witness. -/
def demo3 : List Holding := [h3A, h3B, h3C]

/-- The plan entry produced for `demo3`: B (XIRR 30) wins; C and A are
merge candidates worth 6 + 2 = 8. -/
def c4e : PlanEntry :=
  ⟨"Flexi Cap", initFund (derive h3B),
   [initFund (derive h3C), initFund (derive h3A)], 8⟩

/-- Two rows of the same scheme for the merge witness. -/
def c10h1 : Holding := ⟨"S", "Equity", "Mid Cap", "AMC1", 1, 2, 4, 2, 7⟩

/-- Second row of the same scheme. -/
def c10h2 : Holding := ⟨"S", "Equity", "Mid Cap", "AMC1", 2, 6, 4, -2, 9⟩

/-- A grid with one pre-header junk row for the C7 witness. -/
def c7wpre : List (List Cell) := [[Cell.str "junk"]]

/-- The C7 witness header row. -/
def c7whdr : List Cell := [Cell.str "Scheme Name", Cell.str "Current Value"]

/-- The C7 witness data rows. -/
def c7wpost : List (List Cell) := [[Cell.str "X", Cell.str "9"]]

/-- The grid of the C1 witness: a quoted comma-separated number. -/
def c1wgrid : List (List Cell) :=
  [[Cell.str "Scheme Name", Cell.str "Current Value"],
   [Cell.str "X", Cell.str "\"4,5\""]]

/-- The row object produced from `c1wgrid`. -/
def c1wobj : Obj := [("Scheme Name", JVal.str "X"), ("Current Value", JVal.num 45)]

/-! ## Witnesses -/

set_option maxRecDepth 2000

set_option maxHeartbeats 1000000

/-- Witness for C1 (amended): at `c1wgrid` the kept row's
`Current Value` coerces the text "4,5" to the finite number 45. -/
theorem c1_coercion_witness :
    numLike (JVal.num 45)
      ∧ coerceNum JVal.undef = JVal.num 0
      ∧ coerceNum (JVal.str "") = JVal.num 0
      ∧ (∀ s : String, s ≠ "" →
          coerceNum (JVal.str s) = ofPFloat (parseFloatJS (removeAll ',' s)))
      ∧ (∀ q : ℚ, coerceNum (JVal.num q) = JVal.num q) :=
  c1_coercion c1wgrid c1wobj (by with_unfolding_all decide) "Current Value" (JVal.num 45)
    (by with_unfolding_all decide) (Or.inl (by decide))

/-- Witness for C3 at the spec's worked example: the single Large Cap
entry has alpha 2 = 15.5 − 13.5, the two operands rounded independently. -/
theorem c3_alpha_rounding_witness :
    ∃ sc sp sw, (sc, (sp, sw)) ∈ categoryXIRROf (workingSet demoLC false) ∧ 0 < sw
      ∧ compLC.category = sc ∧ compLC.myXIRR = round2 (sp / sw)
      ∧ compLC.benchXIRR = (benchTable (resolveBench sc)).ret
      ∧ compLC.alpha = round2 (sp / sw) - round2 compLC.benchXIRR :=
  c3_alpha_rounding demoLC false compLC (by with_unfolding_all decide)

/-- Witness for C4 at `demo3`: its single plan entry comes from the
3-scheme Flexi Cap group, ranked by XIRR descending with B on top. -/
theorem c4_consolidation_witness :
    ∃ c ∈ (analyze demo3 false).categoryTree, ∃ s ∈ c.subCategories,
      2 < s.fundCount ∧ s.fundCount = s.funds.length ∧ c4e.category = s.name
        ∧ (c4e.winner :: c4e.others).Perm s.funds
        ∧ List.Pairwise (fun a b => rankKey b ≤ rankKey a) (c4e.winner :: c4e.others)
        ∧ (∀ f ∈ c4e.others, rankKey f ≤ rankKey c4e.winner)
        ∧ c4e.others.length + 1 = s.fundCount
        ∧ c4e.potentialMoveValue = (c4e.others.map (fun f => f.currentValue)).sum :=
  (c4_consolidation demo3 false).2.1 c4e (by with_unfolding_all decide)

/-- Witness for C5 at `demoW`: the Large Cap accumulator is
`(12·10000, 10000)` and, having positive weight, produces a comparison
entry. -/
theorem c5_weighted_xirr_witness :
    ∃ e ∈ (analyze demoW false).comparisonData, e.category = "Large Cap" :=
  (c5_weighted_xirr demoW false "Large Cap").2.1.2
    ⟨120, 10, by with_unfolding_all decide, by norm_num⟩

/-- Witness for C6 (amended) on the empty portfolio: zero clutter, zero
loss-makers and zero size score exactly 100 with label "Excellent". -/
theorem c6_amended_witness :
    (analyze [] false).healthScore.score = 100
      ∧ (analyze [] false).healthScore.label = "Excellent" :=
  (c6_amended [] false).2.2.2.2 rfl rfl (by decide)

/-- Witness for C7 (amended): a junk row precedes the header; the header
is found at index 1 and only the rows after it become data. -/
theorem c7_amended_witness :
    (findHeaderIdx [[Cell.str "junk"]] = none ∧ processRawRows [[Cell.str "junk"]] = [])
      ∧ (findHeaderIdx (c7wpre ++ c7whdr :: c7wpost) = some c7wpre.length
          ∧ processRawRows (c7wpre ++ c7whdr :: c7wpost)
            = c7wpost.filterMap (processRow (mkHeaders c7whdr))) :=
  ⟨(c7_amended [[Cell.str "junk"]] [] [] []).1 (by with_unfolding_all decide),
   (c7_amended [] c7wpre c7wpost c7whdr).2 (by with_unfolding_all decide)
     (by with_unfolding_all decide)⟩

/-- Witness for C10 at two same-scheme rows: sums 8/8/0/3, count 2,
merged absolute return 0, and the first row's XIRR 7 as ranking key. -/
theorem c10_merge_frame_witness :
    ∃ f, fundLookup (smartGroupsOf (workingSet [c10h1, c10h2] false)) "Equity" "Mid Cap" "S"
        = some f
      ∧ f.investedValue = (([derive c10h1, derive c10h2].map (fun i => i.investedValue)).sum)
      ∧ f.currentValue = (([derive c10h1, derive c10h2].map (fun i => i.currentValue)).sum)
      ∧ f.returns = (([derive c10h1, derive c10h2].map (fun i => i.returns)).sum)
      ∧ f.units = (([derive c10h1, derive c10h2].map (fun i => i.units)).sum)
      ∧ f.absReturn = (if 0 < f.investedValue
          then (f.currentValue - f.investedValue) / f.investedValue * 100 else 0)
      ∧ f.count = [derive c10h2].length + 1
      ∧ f.xirr = (derive c10h1).xirr ∧ f.schemeName = (derive c10h1).schemeName
      ∧ f.category = (derive c10h1).category ∧ f.subCategory = (derive c10h1).subCategory
      ∧ f.amc = (derive c10h1).amc
      ∧ f.currentNAV = (derive c10h1).currentNAV ∧ f.avgBuyNAV = (derive c10h1).avgBuyNAV
      ∧ rankKey f = jsOrQ (derive c10h1).xirr f.absReturn :=
  c10_merge_frame [c10h1, c10h2] false "Equity" "Mid Cap" "S" (derive c10h1) [derive c10h2]
    (by with_unfolding_all decide)

end PA
